import Mathlib

/-!
Verification development for the buildifier repository: a parser and
canonical formatter for a Starlark-like build-configuration language,
plus the command-line driver (`buildifier/buildifier.go`) and the
`NewBuildFile` generator (`core/builder.go`).

The repository ships only the driver, `NewBuildFile`, and a test; the
core package (lexer, parser, formatter, rewriter, rule accessors) is
declared and called but its sources are absent.  Those components are
modelled from the specification, as marked in the doc comments below.
The modelled language is the fragment exercised by the specification:
top-level rule calls with keyword and positional arguments whose
expressions are string literals, identifiers, and lists of string
literals.  Machine integers do not occur; positions are natural
numbers (byte offsets for lexing, end-of-input offsets for the
grammar); fallible operations return `Except`.
-/

namespace Buildifier

/-- What the lexer or parser expected at the offending position; the
closed set of the error descriptions the implementation can emit. -/
inductive Expectation where
  | internalFuel
  | closingQuote
  | tokenChar
  | expression
  | commaOrCloseBracket
  | stringOrCloseBracket
  | commaOrCloseParen
  | newlineAfterStatement
  | openParenAfterRuleName
  | ruleName
deriving DecidableEq

/-- The human-readable description of an expectation. -/
def Expectation.describe : Expectation → String
  | .internalFuel => "internal limit exhausted"
  | .closingQuote => "expected a closing quote of the string literal"
  | .tokenChar => "expected a statement, expression or punctuation character"
  | .expression => "expected an expression"
  | .commaOrCloseBracket => "expected a comma or closing bracket in the list"
  | .stringOrCloseBracket => "expected a string literal or closing bracket in the list"
  | .commaOrCloseParen => "expected a comma or closing parenthesis"
  | .newlineAfterStatement => "expected a newline after the statement"
  | .openParenAfterRuleName => "expected an opening parenthesis after the rule name"
  | .ruleName => "expected a rule name"

/-- Position-and-message lexing error, per the spec contract
`tokenize(bytes) -> tokens or LexError(position, message)`. -/
structure LexErr where
  pos : Nat
  msg : Expectation
deriving DecidableEq

/-- Syntax error carrying the offending position and a description of
what was expected, per the spec contract for `parse`. -/
structure SynErr where
  pos : Nat
  expected : Expectation
deriving DecidableEq

/-- Token kinds of the modelled lexer. -/
inductive Tok where
  | ident (s : String)
  | str (s : String)
  | lparen
  | rparen
  | lbrack
  | rbrack
  | comma
  | eq
  | newline
deriving DecidableEq

/-- Modelled from the spec: expression variants restricted to the
fragment the claims exercise (string literal, identifier, list of
string literals). -/
inductive Expr where
  | str (s : String)
  | ident (s : String)
  | list (elems : List String)
deriving DecidableEq

/-- A call argument: positional expression or keyword attribute. -/
inductive Arg where
  | pos (e : Expr)
  | kw (name : String) (val : Expr)
deriving DecidableEq

/-- A top-level rule: callee identifier plus ordered arguments. -/
structure Rule where
  kind : String
  args : List Arg
deriving DecidableEq

/-- A parsed file: logical path plus ordered top-level rules. -/
structure File where
  path : String
  stmts : List Rule
deriving DecidableEq

/-- Characters admitted inside identifiers. -/
def identChar (c : Char) : Bool :=
  c.isAlpha || c = '_' || c.isDigit

/-- A well-formed identifier: nonempty and made of identifier characters. -/
def isIdentStr (s : String) : Bool :=
  !s.data.isEmpty && s.data.all identChar

/-- A string literal body the lexer can have produced: free of `"`. -/
def strOk (s : String) : Bool :=
  s.data.all (fun c => !(c = '"'))

/-- Well-formed expressions: exactly the trees the parser can build. -/
def exprWF : Expr → Bool
  | .str s => strOk s
  | .ident s => isIdentStr s
  | .list es => es.all strOk

/-- Well-formed arguments. -/
def argWF : Arg → Bool
  | .pos e => exprWF e
  | .kw n v => isIdentStr n && exprWF v

/-- Well-formed rules. -/
def ruleWF (r : Rule) : Bool :=
  isIdentStr r.kind && r.args.all argWF

/-- Well-formed files. -/
def fileWF (f : File) : Bool :=
  f.stmts.all ruleWF

/-- Longest leading run of identifier characters, with the remainder. -/
def takeIdent : List Char → List Char × List Char
  | [] => ([], [])
  | c :: cs =>
    if identChar c then
      let p := takeIdent cs
      (c :: p.1, p.2)
    else ([], c :: cs)

/-- Scan a string-literal body up to the closing quote; `none` when the
literal is unterminated. -/
def takeStr : List Char → Option (List Char × List Char)
  | [] => none
  | c :: cs =>
    if c = '"' then some ([], cs)
    else
      match takeStr cs with
      | none => none
      | some p => some (c :: p.1, p.2)

/-- A token paired with the byte offset of its first character. -/
abbrev PTok := Tok × Nat

/-- Modelled from the spec: the lexer, as a fuelled character scanner.
Newlines are significant at bracket depth zero and skipped inside
brackets; spaces are insignificant; each step consumes at least one
character, so fuel exceeding the input length never runs out. -/
def lexGoF : Nat → List Char → Nat → Nat → Except LexErr (List PTok)
  | 0, _, _, pos => .error ⟨pos, .internalFuel⟩
  | _ + 1, [], _, _ => .ok []
  | fu + 1, c :: cs, depth, pos =>
    if c = ' ' then lexGoF fu cs depth (pos + 1)
    else if c = '\n' then
      if depth = 0 then
        match lexGoF fu cs depth (pos + 1) with
        | .error e => .error e
        | .ok ts => .ok ((Tok.newline, pos) :: ts)
      else lexGoF fu cs depth (pos + 1)
    else if c = '(' then
      match lexGoF fu cs (depth + 1) (pos + 1) with
      | .error e => .error e
      | .ok ts => .ok ((Tok.lparen, pos) :: ts)
    else if c = ')' then
      match lexGoF fu cs (depth - 1) (pos + 1) with
      | .error e => .error e
      | .ok ts => .ok ((Tok.rparen, pos) :: ts)
    else if c = '[' then
      match lexGoF fu cs (depth + 1) (pos + 1) with
      | .error e => .error e
      | .ok ts => .ok ((Tok.lbrack, pos) :: ts)
    else if c = ']' then
      match lexGoF fu cs (depth - 1) (pos + 1) with
      | .error e => .error e
      | .ok ts => .ok ((Tok.rbrack, pos) :: ts)
    else if c = ',' then
      match lexGoF fu cs depth (pos + 1) with
      | .error e => .error e
      | .ok ts => .ok ((Tok.comma, pos) :: ts)
    else if c = '=' then
      match lexGoF fu cs depth (pos + 1) with
      | .error e => .error e
      | .ok ts => .ok ((Tok.eq, pos) :: ts)
    else if c = '"' then
      match takeStr cs with
      | none => .error ⟨pos, .closingQuote⟩
      | some p =>
        match lexGoF fu p.2 depth (pos + p.1.length + 2) with
        | .error e => .error e
        | .ok ts => .ok ((Tok.str ⟨p.1⟩, pos) :: ts)
    else if identChar c then
      let p := takeIdent cs
      match lexGoF fu p.2 depth (pos + p.1.length + 1) with
      | .error e => .error e
      | .ok ts => .ok ((Tok.ident ⟨c :: p.1⟩, pos) :: ts)
    else .error ⟨pos, .tokenChar⟩

/-- The lexer over a whole string, with always-sufficient fuel. -/
def lex (s : String) : Except LexErr (List PTok) :=
  lexGoF (s.data.length + 1) s.data 0 0

/-- Modelled from the spec: elements of a list display, as string
literals separated by commas, an optional trailing comma, then the
closing bracket. -/
def parseElems (eof : Nat) : List PTok → Except SynErr (List String × List PTok)
  | (Tok.rbrack, _) :: rest => .ok ([], rest)
  | (Tok.str s, _) :: (Tok.comma, _) :: rest =>
    match parseElems eof rest with
    | .error e => .error e
    | .ok p => .ok (s :: p.1, p.2)
  | (Tok.str s, _) :: (Tok.rbrack, _) :: rest => .ok ([s], rest)
  | (Tok.str _, _) :: (_, p) :: _ =>
    .error ⟨p, .commaOrCloseBracket⟩
  | (Tok.str _, _) :: [] =>
    .error ⟨eof, .commaOrCloseBracket⟩
  | (_, p) :: _ =>
    .error ⟨p, .stringOrCloseBracket⟩
  | [] => .error ⟨eof, .stringOrCloseBracket⟩

/-- Modelled from the spec: parse one expression of the modelled
fragment, returning the remaining tokens. -/
def parseExpr (eof : Nat) : List PTok → Except SynErr (Expr × List PTok)
  | (Tok.str s, _) :: rest => .ok (.str s, rest)
  | (Tok.ident s, _) :: rest => .ok (.ident s, rest)
  | (Tok.lbrack, _) :: rest =>
    match parseElems eof rest with
    | .error e => .error e
    | .ok p => .ok (.list p.1, p.2)
  | (_, p) :: _ => .error ⟨p, .expression⟩
  | [] => .error ⟨eof, .expression⟩

/-- Modelled from the spec: parse the arguments of a call, including
the closing parenthesis, as a fuelled loop consuming at least one
token per iteration. -/
def parseArgsF (eof : Nat) : Nat → List PTok → Except SynErr (List Arg × List PTok)
  | 0, _ => .error ⟨eof, .internalFuel⟩
  | fu + 1, toks =>
    match toks with
    | (Tok.rparen, _) :: rest => .ok ([], rest)
    | (Tok.ident n, _) :: (Tok.eq, _) :: rest =>
      match parseExpr eof rest with
      | .error e => .error e
      | .ok p =>
        match p.2 with
        | (Tok.comma, _) :: rest3 =>
          match parseArgsF eof fu rest3 with
          | .error e => .error e
          | .ok q => .ok (Arg.kw n p.1 :: q.1, q.2)
        | (Tok.rparen, _) :: rest3 => .ok ([Arg.kw n p.1], rest3)
        | (_, pp) :: _ => .error ⟨pp, .commaOrCloseParen⟩
        | [] => .error ⟨eof, .commaOrCloseParen⟩
    | other =>
      match parseExpr eof other with
      | .error e => .error e
      | .ok p =>
        match p.2 with
        | (Tok.comma, _) :: rest3 =>
          match parseArgsF eof fu rest3 with
          | .error e => .error e
          | .ok q => .ok (Arg.pos p.1 :: q.1, q.2)
        | (Tok.rparen, _) :: rest3 => .ok ([Arg.pos p.1], rest3)
        | (_, pp) :: _ => .error ⟨pp, .commaOrCloseParen⟩
        | [] => .error ⟨eof, .commaOrCloseParen⟩

/-- Modelled from the spec: parse the statement list, skipping blank
lines; every statement is a rule call terminated by a newline or the
end of input. -/
def parseStmtsF (eof : Nat) : Nat → List PTok → Except SynErr (List Rule)
  | 0, _ => .error ⟨eof, .internalFuel⟩
  | fu + 1, toks =>
    match toks with
    | [] => .ok []
    | (Tok.newline, _) :: rest => parseStmtsF eof fu rest
    | (Tok.ident k, _) :: (Tok.lparen, _) :: rest =>
      match parseArgsF eof (rest.length + 1) rest with
      | .error e => .error e
      | .ok p =>
        match p.2 with
        | (Tok.newline, _) :: rest3 =>
          match parseStmtsF eof fu rest3 with
          | .error e => .error e
          | .ok rs => .ok (Rule.mk k p.1 :: rs)
        | [] => .ok [Rule.mk k p.1]
        | (_, pp) :: _ => .error ⟨pp, .newlineAfterStatement⟩
    | (Tok.ident _, _) :: (_, p) :: _ =>
      .error ⟨p, .openParenAfterRuleName⟩
    | (Tok.ident _, _) :: [] =>
      .error ⟨eof, .openParenAfterRuleName⟩
    | (_, p) :: _ => .error ⟨p, .ruleName⟩

/-- Token-level parse of a whole file. -/
def parseToks (path : String) (eof : Nat) (toks : List PTok) : Except SynErr File :=
  match parseStmtsF eof (toks.length + 1) toks with
  | .error e => .error e
  | .ok rs => .ok ⟨path, rs⟩

/-- Modelled from the spec: `Parse(path, bytes)` returns either a
`File` or a single parse-error kind combining lexing and grammar
errors, and never a partial tree. -/
def Parse (path : String) (text : String) : Except SynErr File :=
  match lex text with
  | .error e => .error ⟨e.pos, e.msg⟩
  | .ok toks => parseToks path text.length toks

/-- Render one canonical list element line. -/
def elemChars (s : String) : List Char :=
  "        \"".data ++ s.data ++ "\",\n".data

/-- Modelled from the spec: canonical rendering of an expression, as
characters. Nonempty lists print one element per line with a trailing
comma; the empty list prints as `[]`. -/
def fmtExprChars : Expr → List Char
  | .str s => '"' :: s.data ++ ['"']
  | .ident s => s.data
  | .list [] => "[]".data
  | .list (e :: es) => "[\n".data ++ (e :: es).flatMap elemChars ++ "    ]".data

/-- Canonical rendering of an argument. -/
def fmtArgChars : Arg → List Char
  | .pos e => fmtExprChars e
  | .kw n v => n.data ++ " = ".data ++ fmtExprChars v

/-- One canonical argument line. -/
def argLineChars (a : Arg) : List Char :=
  "    ".data ++ fmtArgChars a ++ ",\n".data

/-- Modelled from the spec: canonical rendering of a rule, one
argument per line with a trailing comma. -/
def fmtRuleChars (r : Rule) : List Char :=
  r.kind.data ++ ['('] ++
    (if r.args.isEmpty then [] else '\n' :: r.args.flatMap argLineChars) ++
    ")\n".data

/-- Canonical rendering of a file, as characters. -/
def fmtFileChars (f : File) : List Char :=
  f.stmts.flatMap fmtRuleChars

/-- Modelled from the spec: `Format(File)`, the deterministic printer
to canonical bytes; a pure total function. -/
def Format (f : File) : String :=
  ⟨fmtFileChars f⟩

/-- The token sequence of a canonically rendered expression. -/
def exprToks : Expr → List Tok
  | .str s => [.str s]
  | .ident s => [.ident s]
  | .list es => .lbrack :: es.flatMap (fun s => [.str s, .comma]) ++ [.rbrack]

/-- The token sequence of a canonically rendered argument. -/
def argToks : Arg → List Tok
  | .pos e => exprToks e
  | .kw n v => .ident n :: .eq :: exprToks v

/-- The token sequence of a canonically rendered rule. -/
def ruleToks (r : Rule) : List Tok :=
  .ident r.kind :: .lparen :: r.args.flatMap (fun a => argToks a ++ [.comma]) ++
    [.rparen, .newline]

/-- The token sequence of a canonically rendered file. -/
def fileToks (f : File) : List Tok :=
  f.stmts.flatMap ruleToks

/-- The next character, if any, cannot extend an identifier. -/
def headNotIdent : List Char → Bool
  | [] => true
  | c :: _ => !identChar c

/-- `LexOk chars depth toks`: with any sufficient fuel and from any
position, the lexer accepts `chars` at bracket depth `depth` and
produces exactly the tokens `toks` (with some position annotations). -/
def LexOk (chars : List Char) (depth : Nat) (toks : List Tok) : Prop :=
  ∀ fuel pos, chars.length < fuel →
    ∃ ann, lexGoF fuel chars depth pos = .ok ann ∧ ann.map Prod.fst = toks

/-- Tokens the lexer can emit: identifier and string tokens carry
well-formed payloads. -/
def tokWF : Tok → Bool
  | .ident s => isIdentStr s
  | .str s => strOk s
  | _ => true

/-- Every token of the annotated stream is well-formed. -/
def annWF (ann : List PTok) : Prop :=
  ∀ pt ∈ ann, tokWF pt.1 = true

/-- A text is canonical when it is the formatter output of some
well-formed file, per the spec glossary ("the unique output produced by
the formatter"). -/
def IsCanonical (t : String) : Prop :=
  ∃ f : File, fileWF f = true ∧ Format f = t

/-- The rewrite log of one `Rewrite` call, mirroring the Go struct
field `RewriteInfo.Log`. -/
structure RewriteInfo where
  Log : List String
deriving DecidableEq

/-- Modelled from the spec: `RewriteInfo`'s rendering to a short
summary string (the real `String()` lives in the absent rewrite.go). -/
def riSummary (info : RewriteInfo) : String :=
  toString info.Log.length ++ " changes"

/-- The process-wide rewrite configuration the driver passes down
(`build.DisableRewrites` and `build.AllowSort`). -/
structure RewriteConfig where
  DisableRewrites : List String
  AllowSort : List String
deriving DecidableEq

/-- Modelled from the spec: attributes known to be order-insensitive,
hence safe to sort by default. -/
def defaultSortableAttrs : List String :=
  ["srcs", "deps", "visibility", "exports_files"]

/-- An attribute is sortable when it is known order-insensitive or
explicitly whitelisted through `AllowSort`. -/
def sortableAttr (cfg : RewriteConfig) (name : String) : Bool :=
  defaultSortableAttrs.contains name || cfg.AllowSort.contains name

/-- Ascending sort of string-list entries. -/
def sortStrings (l : List String) : List String :=
  l.insertionSort (· ≤ ·)

/-- Duplicate removal in string-list entries. -/
def dedupStrings (l : List String) : List String :=
  l.dedup

/-- Modelled from the spec: one rewrite pass applied to one argument.
A pass touches only keyword attributes whose value is a list and whose
name satisfies the pass's applicability test; a changed node appends
one textual description to the log. -/
def passAttr (path passName : String) (applies : String → Bool)
    (f : List String → List String) : Arg → Arg × List String
  | .kw n (.list es) =>
    if applies n then
      let es2 := f es
      if es2 = es then (.kw n (.list es), [])
      else (.kw n (.list es2), [path ++ ": " ++ passName ++ " " ++ n])
    else (.kw n (.list es), [])
  | a => (a, [])

/-- One rewrite pass applied to one rule. -/
def passRule (path passName : String) (applies : String → Bool)
    (f : List String → List String) (r : Rule) : Rule × List String :=
  (⟨r.kind, r.args.map (fun a => (passAttr path passName applies f a).1)⟩,
   r.args.flatMap (fun a => (passAttr path passName applies f a).2))

/-- Modelled from the spec: one named rewrite pass applied to a file,
skipped entirely when its name is disabled. -/
def passFile (cfg : RewriteConfig) (passName : String) (applies : String → Bool)
    (f : List String → List String) (file : File) : File × List String :=
  if cfg.DisableRewrites.contains passName then (file, [])
  else
    (⟨file.path, file.stmts.map (fun r => (passRule file.path passName applies f r).1)⟩,
     file.stmts.flatMap (fun r => (passRule file.path passName applies f r).2))

/-- Modelled from the spec: `Rewrite(File, info)`, the ordered pipeline
of independently named, individually disableable passes; it mutates the
tree and accumulates the change log, and has no error outcome. -/
def Rewrite (cfg : RewriteConfig) (f : File) : File × RewriteInfo :=
  let s1 := passFile cfg "sort-list-attribute" (sortableAttr cfg) sortStrings f
  let s2 := passFile cfg "deduplicate-list-entries" (fun _ => true) dedupStrings s1.1
  (s2.1, ⟨s1.2 ++ s2.2⟩)

/-- The string payload of a string-literal expression. -/
def strValue : Expr → Option String
  | .str s => some s
  | _ => none

/-- The value of a keyword attribute; the last occurrence wins, per the
spec's duplicate-key rule. -/
def Rule.AttrExpr (r : Rule) (key : String) : Option Expr :=
  r.args.foldl
    (fun acc a =>
      match a with
      | .kw n v => if n = key then some v else acc
      | _ => acc)
    none

/-- The first positional argument of a rule, if any. -/
def Rule.firstPositional (r : Rule) : Option Expr :=
  r.args.findSome? fun a =>
    match a with
    | .pos e => some e
    | _ => none

/-- Modelled from the spec: `Rule.Name()` returns the value of the
`name` keyword attribute if present, otherwise the first positional
argument if it is a string literal, otherwise the empty string. -/
def Rule.Name (r : Rule) : String :=
  match r.AttrExpr "name" with
  | some v => (strValue v).getD ""
  | none =>
    match r.firstPositional with
    | some e => (strValue e).getD ""
    | none => ""

/-- Modelled from the spec: `File.Rules(kindFilter)` returns the rules
whose kind matches the filter, all of them for the empty filter. -/
def File.Rules (f : File) (kind : String) : List Rule :=
  f.stmts.filter fun r => kind = "" || r.kind = kind

/-- The driver's processing modes; `pipe` is set internally by `main`
when reading standard input in fix mode. -/
inductive Mode where
  | check
  | diffMode
  | fix
  | pipe
deriving DecidableEq

/-- The driver flags that `processFile` consults. -/
structure DriverFlags where
  mode : Mode
  showlog : Bool
  vflag : Bool
  pathFlag : String
  cfg : RewriteConfig
deriving DecidableEq

/-- A call from the driver into the core package, for tracing the
collaborator contract. -/
inductive CoreCall where
  | parseCall
  | formatCall
  | rewriteCall
deriving DecidableEq

/-- Observable output actions of `processFile`. -/
inductive Action where
  | report (line : String)
  | showDiff (infile : String) (newContent : String)
  | writeBack (filename : String) (content : String)
  | writeStdout (content : String)
  | verboseNote (msg : String)
  | stderrDiag (msg : String)
deriving DecidableEq

/-- What one `processFile` call produces: output actions, the returned
error, and the ordered core calls it made. -/
structure ProcResult where
  actions : List Action
  err : Option String
  trace : List CoreCall
deriving DecidableEq

/-- The output actions the claims enumerate: a check-mode report line,
a diff, or an in-place write (not the unconditional pipe-mode stdout
write and not verbose or diagnostic notes). -/
def outputAction : Action → Bool
  | .report _ => true
  | .showDiff _ _ => true
  | .writeBack _ _ => true
  | _ => false

/-- The check-mode log deduplication loop of `processFile`
(buildifier.go, the `for _, s := range info.Log` loop): Go's `last`
starts as the zero value `""`, and an entry equal to `last` is
skipped. -/
def uniqLoop : String → List String → List String
  | _, [] => []
  | last, s :: rest =>
    if s = last then uniqLoop last rest else s :: uniqLoop s rest

/-- The log lines check mode prints: `sort.Strings(info.Log)` followed
by the adjacent-duplicate-skipping loop. -/
def checkLogLines (log : List String) : List String :=
  uniqLoop "" (sortStrings log)

/-- `processFile` from buildifier.go, over in-memory data: parse (a
parse error is discarded and reported as success), apply the `-path`
override, format before rewriting, rewrite, format again, then act
according to the mode; check, diff and fix act only when the final
bytes differ from the input. -/
def processFile (fl : DriverFlags) (filename : String) (data : String) : ProcResult :=
  match Parse filename data with
  | .error _ => ⟨[], none, [.parseCall]⟩
  | .ok f0 =>
    let f := if fl.pathFlag = "" then f0 else ⟨fl.pathFlag, f0.stmts⟩
    let beforeRewrite := Format f
    let rw := Rewrite fl.cfg f
    let ndata := Format rw.1
    let info := rw.2
    let tr := [CoreCall.parseCall, .formatCall, .rewriteCall, .formatCall]
    match fl.mode with
    | .check =>
      if data = ndata then ⟨[], none, tr⟩
      else
        let reformat := if data = beforeRewrite then "" else " reformat"
        let logStr :=
          if (!info.Log.isEmpty) && fl.showlog then
            " " ++ String.intercalate " " (checkLogLines info.Log)
          else ""
        ⟨[.report (filename ++ " #" ++ reformat ++ " " ++ riSummary info ++ logStr)],
          none, tr⟩
    | .diffMode =>
      if data = ndata then ⟨[], none, tr⟩
      else ⟨[.showDiff filename ndata], none, tr⟩
    | .pipe => ⟨[.writeStdout ndata], none, tr⟩
    | .fix =>
      if data = ndata then ⟨[], none, tr⟩
      else
        ⟨.writeBack filename ndata ::
          (if fl.vflag then [.verboseNote ("fixed " ++ filename)] else []),
          none, tr⟩

/-- `exitCode` from buildifier.go: initialized to 0 and never
reassigned anywhere in the file; `main` exits with it. -/
def exitCode : Nat := 0

/-- The driver loop over files: collect per-file actions; a diagnostic
line is printed only for files whose `processFile` returned a non-nil
error; the exit code is `exitCode`. -/
def runFiles (fl : DriverFlags) (files : List (String × String)) : List Action × Nat :=
  let results := files.map fun fd => processFile fl fd.1 fd.2
  ((results.flatMap fun r => r.actions) ++
      (results.filterMap fun r => r.err.map fun e => Action.stderrDiag ("buildifier: " ++ e)),
    exitCode)

/-- Whether `needle` is a prefix of `hay`, as an executable scan. -/
def startsWithSeq : List Char → List Char → Bool
  | _, [] => true
  | [], _ :: _ => false
  | c :: cs, n :: ns => c = n && startsWithSeq cs ns

/-- Whether `needle` occurs contiguously inside `hay`. -/
def hasSub : List Char → List Char → Bool
  | [], needle => needle.isEmpty
  | c :: cs, needle => startsWithSeq (c :: cs) needle || hasSub cs needle

/-- Values the Go template document can hold: strings, slices, maps. -/
inductive TValue where
  | vstr (s : String)
  | vlist (els : List TValue)
  | vmap (entries : List (String × TValue))

/-- An operand of a template action: a field of the current document
or a declared variable. -/
inductive TRef where
  | fieldRef (name : String)
  | varRef (name : String)

/-- Parsed template nodes: literal text, `\x7b\x7b.Field\x7d\x7d`,
`\x7b\x7b$var\x7d\x7d`, and the two `range` forms used by
`NewBuildFile`'s template. -/
inductive TNode where
  | text (s : String)
  | fieldNode (name : String)
  | varNode (name : String)
  | range1 (v : String) (src : TRef) (body : List TNode)
  | range2 (iv ev : String) (src : TRef) (body : List TNode)

/-- A raw template segment: literal text or the inside of one action. -/
inductive Chunk where
  | text (s : List Char)
  | action (s : List Char)

/-- The opening action brace character. -/
def lbraceC : Char := Char.ofNat 123

/-- The closing action brace character. -/
def rbraceC : Char := Char.ofNat 125

/-- Literal text up to the next action opener, with the remainder. -/
def scanText : List Char → List Char × List Char
  | [] => ([], [])
  | [c] => ([c], [])
  | c :: c2 :: cs =>
    if c = lbraceC && c2 = lbraceC then ([], c :: c2 :: cs)
    else
      let p := scanText (c2 :: cs)
      (c :: p.1, p.2)

/-- The content of an action up to its closer, with the remainder;
`none` when the action is unterminated. -/
def scanAction : List Char → Option (List Char × List Char)
  | [] => none
  | [_] => none
  | c :: c2 :: cs =>
    if c = rbraceC && c2 = rbraceC then some ([], cs)
    else
      match scanAction (c2 :: cs) with
      | none => none
      | some p => some (c :: p.1, p.2)

/-- Split template source into text and action chunks. -/
def chunksF : Nat → List Char → Except String (List Chunk)
  | 0, _ => .error "template chunking fuel exhausted"
  | _ + 1, [] => .ok []
  | fu + 1, cs =>
    let p := scanText cs
    match p.2 with
    | [] => .ok [Chunk.text p.1]
    | r =>
      match scanAction (r.drop 2) with
      | none => .error "unterminated action"
      | some q =>
        match chunksF fu q.2 with
        | .error e => .error e
        | .ok rest =>
          .ok ((if p.1.isEmpty then [] else [Chunk.text p.1]) ++ Chunk.action q.1 :: rest)

/-- Split an action body into words; commas are words of their own. -/
def actionWords (cs : List Char) : List String :=
  go [] cs
where
  go (acc : List Char) : List Char → List String
    | [] => if acc.isEmpty then [] else [String.mk acc]
    | c :: cs =>
      if c = ' ' then
        if acc.isEmpty then go [] cs else String.mk acc :: go [] cs
      else if c = ',' then
        if acc.isEmpty then "," :: go [] cs
        else String.mk acc :: "," :: go [] cs
      else go (acc ++ [c]) cs

/-- The recognized action forms. -/
inductive ActKind where
  | endAct
  | fieldAct (name : String)
  | varAct (name : String)
  | range1Act (v : String) (src : TRef)
  | range2Act (iv ev : String) (src : TRef)

/-- Parse a `.Field` or `$var` operand. -/
def parseRef (w : String) : Except String TRef :=
  match w.data with
  | '.' :: rest => .ok (.fieldRef ⟨rest⟩)
  | '$' :: rest => .ok (.varRef ⟨rest⟩)
  | _ => .error "unsupported operand"

/-- Classify one action body. -/
def classifyAction (cs : List Char) : Except String ActKind :=
  match actionWords cs with
  | ["end"] => .ok .endAct
  | [w] =>
    match w.data with
    | '.' :: rest => .ok (.fieldAct ⟨rest⟩)
    | '$' :: rest => .ok (.varAct ⟨rest⟩)
    | _ => .error "unsupported action"
  | ["range", v, ":=", src] =>
    match v.data with
    | '$' :: vrest =>
      match parseRef src with
      | .error e => .error e
      | .ok r => .ok (.range1Act ⟨vrest⟩ r)
    | _ => .error "range variable expected"
  | ["range", iv, ",", ev, ":=", src] =>
    match iv.data, ev.data with
    | '$' :: irest, '$' :: erest =>
      match parseRef src with
      | .error e => .error e
      | .ok r => .ok (.range2Act ⟨irest⟩ ⟨erest⟩ r)
    | _, _ => .error "range variables expected"
  | _ => .error "unsupported action"

/-- Build the node tree from chunks; an `end` action closes the
innermost `range` body and is consumed by the caller. -/
def buildNodes : Nat → List Chunk → Except String (List TNode × List Chunk)
  | 0, _ => .error "template build fuel exhausted"
  | _ + 1, [] => .ok ([], [])
  | fu + 1, Chunk.text s :: rest =>
    match buildNodes fu rest with
    | .error e => .error e
    | .ok p => .ok (TNode.text ⟨s⟩ :: p.1, p.2)
  | fu + 1, Chunk.action a :: rest =>
    match classifyAction a with
    | .error e => .error e
    | .ok .endAct => .ok ([], rest)
    | .ok (.fieldAct n) =>
      match buildNodes fu rest with
      | .error e => .error e
      | .ok p => .ok (TNode.fieldNode n :: p.1, p.2)
    | .ok (.varAct n) =>
      match buildNodes fu rest with
      | .error e => .error e
      | .ok p => .ok (TNode.varNode n :: p.1, p.2)
    | .ok (.range1Act v src) =>
      match buildNodes fu rest with
      | .error e => .error e
      | .ok body =>
        match buildNodes fu body.2 with
        | .error e => .error e
        | .ok cont => .ok (TNode.range1 v src body.1 :: cont.1, cont.2)
    | .ok (.range2Act iv ev src) =>
      match buildNodes fu rest with
      | .error e => .error e
      | .ok body =>
        match buildNodes fu body.2 with
        | .error e => .error e
        | .ok cont => .ok (TNode.range2 iv ev src body.1 :: cont.1, cont.2)

/-- Modelled behavior of the Go standard template `Parse` call for the
constructs `NewBuildFile`'s template uses; a malformed template is an
error, the branch on which builder.go calls `log.Fatalf`. -/
def tmplParse (s : String) : Except String (List TNode) :=
  match chunksF (s.data.length + 1) s.data with
  | .error e => .error e
  | .ok chunks =>
    match buildNodes (chunks.length + 1) chunks with
    | .error e => .error e
    | .ok p => if p.2.isEmpty then .ok p.1 else .error "unexpected end action"

/-- The variable bindings in scope during template execution. -/
abbrev TEnv := List (String × TValue)

/-- Look a variable up in the environment. -/
def lookupEnv (env : TEnv) (n : String) : Option TValue :=
  match env with
  | [] => none
  | (k, v) :: rest => if k = n then some v else lookupEnv rest n

/-- Resolve an operand against the environment and the document. -/
def refVal (env : TEnv) (dot : TValue) : TRef → Except String TValue
  | .fieldRef n =>
    match dot with
    | .vmap entries =>
      match entries.lookup n with
      | some v => .ok v
      | none => .error ("can't evaluate field " ++ n)
    | _ => .error ("can't evaluate field " ++ n)
  | .varRef n =>
    match lookupEnv env n with
    | some v => .ok v
    | none => .error ("undefined variable " ++ n)

/-- The HTML text-context escaping html/template applies to
interpolated values. -/
def escapeChar (c : Char) : List Char :=
  if c = '<' then "&lt;".data
  else if c = '>' then "&gt;".data
  else if c = '&' then "&amp;".data
  else if c = Char.ofNat 39 then "&#39;".data
  else if c = '"' then "&#34;".data
  else [c]

/-- Escape a whole interpolated value. -/
def htmlEscape (s : String) : String :=
  ⟨s.data.flatMap escapeChar⟩

/-- Interpolating a non-string value is not modelled. -/
def tvalueStr : TValue → Except String String
  | .vstr s => .ok s
  | _ => .error "unsupported value interpolation"

/-- Go's text/template ranges over a map in sorted key order. -/
def sortEntries (entries : List (String × TValue)) : List (String × TValue) :=
  entries.insertionSort fun a b => a.1 ≤ b.1

/-- Modelled behavior of template `Execute` as a fuelled worklist
machine; an execution failure is the second branch on which builder.go
calls `log.Fatalf`. -/
def runTmpl : Nat → List (TNode × TEnv) → TValue → Except String String
  | 0, _, _ => .error "template execution fuel exhausted"
  | _ + 1, [], _ => .ok ""
  | fu + 1, (n, env) :: rest, dot =>
    match n with
    | .text s =>
      match runTmpl fu rest dot with
      | .error e => .error e
      | .ok out => .ok (s ++ out)
    | .fieldNode nm =>
      match refVal env dot (.fieldRef nm) with
      | .error e => .error e
      | .ok v =>
        match tvalueStr v with
        | .error e => .error e
        | .ok sv =>
          match runTmpl fu rest dot with
          | .error e => .error e
          | .ok out => .ok (htmlEscape sv ++ out)
    | .varNode nm =>
      match refVal env dot (.varRef nm) with
      | .error e => .error e
      | .ok v =>
        match tvalueStr v with
        | .error e => .error e
        | .ok sv =>
          match runTmpl fu rest dot with
          | .error e => .error e
          | .ok out => .ok (htmlEscape sv ++ out)
    | .range1 v src body =>
      match refVal env dot src with
      | .error e => .error e
      | .ok tv =>
        match tv with
        | .vlist els =>
          runTmpl fu ((els.flatMap fun el => body.map fun b => (b, (v, el) :: env)) ++ rest) dot
        | _ => .error "range over non-list value"
    | .range2 iv ev src body =>
      match refVal env dot src with
      | .error e => .error e
      | .ok tv =>
        match tv with
        | .vmap entries =>
          runTmpl fu
            (((sortEntries entries).flatMap fun kv =>
                body.map fun b => (b, (iv, TValue.vstr kv.1) :: (ev, kv.2) :: env)) ++ rest)
            dot
        | _ => .error "range over non-map value"

/-- The template text constant of `core/builder.go`, verbatim. -/
def templateText : String :=
  "\n\x7b\x7b.RuleName\x7d\x7d(\n    \x7b\x7brange $index, $element := .Attrs\x7d\x7d\n        \"\x7b\x7b $index \x7d\x7d\" : [\n           \x7b\x7b range $name := $element \x7d\x7d\n                \"\x7b\x7b$name\x7d\x7d\",\n           \x7b\x7bend\x7d\x7d\n        ],\n    \x7b\x7bend\x7d\x7d\n)\n"

/-- The document `NewBuildFile` renders: rule name `go_library`, one
attribute `srcs` holding `["src.go"]`. -/
def newBuildDoc : TValue :=
  .vmap [("RuleName", .vstr "go_library"),
         ("Attrs", .vmap [("srcs", .vlist [.vstr "src.go"])])]

/-- The text the template renders for `newBuildDoc`: the single
attribute appears as a quoted string key followed by a colon, not as
keyword-assignment syntax. -/
def generatedText : String :=
  "\ngo_library(\n    \n        \"srcs\" : [\n           \n                \"src.go\",\n           \n        ],\n    \n)\n"

/-- `NewBuildFile` from core/builder.go: parse the fixed template
(failure would hit the first `log.Fatalf`), execute it on the fixed
document (failure would hit the second `log.Fatalf`), then return
`Parse("generated", bytes)`.  The outer `.error` constructor stands
for the process-aborting `log.Fatalf` branches. -/
def NewBuildFile : Except String (Except SynErr File) :=
  match tmplParse templateText with
  | .error e => .error ("parsing: " ++ e)
  | .ok nodes =>
    match runTmpl 1000 (nodes.map fun n => (n, ([] : TEnv))) newBuildDoc with
    | .error e => .error ("execution: " ++ e)
    | .ok b => .ok (Parse "generated" b)

theorem identChar_spec {c : Char} (h : identChar c = true) :
    c ≠ ' ' ∧ c ≠ '\n' ∧ c ≠ '(' ∧ c ≠ ')' ∧ c ≠ '[' ∧ c ≠ ']' ∧
      c ≠ ',' ∧ c ≠ '=' ∧ c ≠ '"' := by
  refine ⟨?_, ?_, ?_, ?_, ?_, ?_, ?_, ?_, ?_⟩ <;> (rintro rfl; revert h; decide)

theorem takeStr_closed (b : List Char) (hb : ∀ c ∈ b, ¬(c = '"')) (cs : List Char) :
    takeStr (b ++ '"' :: cs) = some (b, cs) := by
  induction b with
  | nil => simp [takeStr]
  | cons c b ih =>
    have hc : ¬(c = '"') := hb c (by simp)
    have := ih (fun x hx => hb x (by simp [hx]))
    simp [takeStr, hc, this]

theorem takeIdent_run (r : List Char) (hr : ∀ c ∈ r, identChar c = true) (cs : List Char)
    (hcs : headNotIdent cs = true) : takeIdent (r ++ cs) = (r, cs) := by
  induction r with
  | nil =>
    cases cs with
    | nil => simp [takeIdent]
    | cons c cs =>
      have : ¬(identChar c = true) := by simp [headNotIdent] at hcs; simp [hcs]
      simp [takeIdent, this]
  | cons c r ih =>
    have hc : identChar c = true := hr c (by simp)
    have := ih (fun x hx => hr x (by simp [hx]))
    simp [takeIdent, hc, this]

theorem LexOk.nil (d : Nat) : LexOk [] d [] := by
  intro fuel pos hfu
  cases fuel with
  | zero => omega
  | succ fu => exact ⟨[], by simp [lexGoF], rfl⟩

theorem LexOk.space {cs d ts} (h : LexOk cs d ts) : LexOk (' ' :: cs) d ts := by
  intro fuel pos hfu
  cases fuel with
  | zero => omega
  | succ fu =>
    obtain ⟨ann, ha, hm⟩ := h fu (pos + 1) (by simp at hfu; omega)
    exact ⟨ann, by simp [lexGoF, ha], hm⟩

theorem LexOk.newlineDeep {cs d ts} (hd : 0 < d) (h : LexOk cs d ts) :
    LexOk ('\n' :: cs) d ts := by
  intro fuel pos hfu
  cases fuel with
  | zero => omega
  | succ fu =>
    obtain ⟨ann, ha, hm⟩ := h fu (pos + 1) (by simp at hfu; omega)
    exact ⟨ann, by simp [lexGoF, Nat.pos_iff_ne_zero.mp hd, ha], hm⟩

theorem LexOk.newlineTop {cs ts} (h : LexOk cs 0 ts) :
    LexOk ('\n' :: cs) 0 (Tok.newline :: ts) := by
  intro fuel pos hfu
  cases fuel with
  | zero => omega
  | succ fu =>
    obtain ⟨ann, ha, hm⟩ := h fu (pos + 1) (by simp at hfu; omega)
    exact ⟨(Tok.newline, pos) :: ann, by simp [lexGoF, ha], by simp [hm]⟩

theorem LexOk.lparen {cs d ts} (h : LexOk cs (d + 1) ts) :
    LexOk ('(' :: cs) d (Tok.lparen :: ts) := by
  intro fuel pos hfu
  cases fuel with
  | zero => omega
  | succ fu =>
    obtain ⟨ann, ha, hm⟩ := h fu (pos + 1) (by simp at hfu; omega)
    exact ⟨(Tok.lparen, pos) :: ann, by simp [lexGoF, ha], by simp [hm]⟩

theorem LexOk.rparen {cs d ts} (h : LexOk cs (d - 1) ts) :
    LexOk (')' :: cs) d (Tok.rparen :: ts) := by
  intro fuel pos hfu
  cases fuel with
  | zero => omega
  | succ fu =>
    obtain ⟨ann, ha, hm⟩ := h fu (pos + 1) (by simp at hfu; omega)
    exact ⟨(Tok.rparen, pos) :: ann, by simp [lexGoF, ha], by simp [hm]⟩

theorem LexOk.lbrack {cs d ts} (h : LexOk cs (d + 1) ts) :
    LexOk ('[' :: cs) d (Tok.lbrack :: ts) := by
  intro fuel pos hfu
  cases fuel with
  | zero => omega
  | succ fu =>
    obtain ⟨ann, ha, hm⟩ := h fu (pos + 1) (by simp at hfu; omega)
    exact ⟨(Tok.lbrack, pos) :: ann, by simp [lexGoF, ha], by simp [hm]⟩

theorem LexOk.rbrack {cs d ts} (h : LexOk cs (d - 1) ts) :
    LexOk (']' :: cs) d (Tok.rbrack :: ts) := by
  intro fuel pos hfu
  cases fuel with
  | zero => omega
  | succ fu =>
    obtain ⟨ann, ha, hm⟩ := h fu (pos + 1) (by simp at hfu; omega)
    exact ⟨(Tok.rbrack, pos) :: ann, by simp [lexGoF, ha], by simp [hm]⟩

theorem LexOk.comma {cs d ts} (h : LexOk cs d ts) :
    LexOk (',' :: cs) d (Tok.comma :: ts) := by
  intro fuel pos hfu
  cases fuel with
  | zero => omega
  | succ fu =>
    obtain ⟨ann, ha, hm⟩ := h fu (pos + 1) (by simp at hfu; omega)
    exact ⟨(Tok.comma, pos) :: ann, by simp [lexGoF, ha], by simp [hm]⟩

theorem LexOk.eqTok {cs d ts} (h : LexOk cs d ts) :
    LexOk ('=' :: cs) d (Tok.eq :: ts) := by
  intro fuel pos hfu
  cases fuel with
  | zero => omega
  | succ fu =>
    obtain ⟨ann, ha, hm⟩ := h fu (pos + 1) (by simp at hfu; omega)
    exact ⟨(Tok.eq, pos) :: ann, by simp [lexGoF, ha], by simp [hm]⟩

theorem LexOk.strTok {s : String} (hs : strOk s = true) {cs d ts} (h : LexOk cs d ts) :
    LexOk ('"' :: s.data ++ '"' :: cs) d (Tok.str s :: ts) := by
  intro fuel pos hfu
  cases fuel with
  | zero => omega
  | succ fu =>
    have hb : ∀ c ∈ s.data, ¬(c = '"') := by
      intro c hc
      have := List.all_eq_true.mp hs c hc
      simpa using this
    obtain ⟨ann, ha, hm⟩ := h fu (pos + s.length + 2) (by simp at hfu ⊢; omega)
    refine ⟨(Tok.str s, pos) :: ann, ?_, by simp [hm]⟩
    have heta : ({ data := s.data } : String) = s := rfl
    simp [lexGoF, takeStr_closed s.data hb cs, heta, ha]

theorem LexOk.identTok {s : String} (hs : isIdentStr s = true) {cs d ts}
    (hcs : headNotIdent cs = true) (h : LexOk cs d ts) :
    LexOk (s.data ++ cs) d (Tok.ident s :: ts) := by
  intro fuel pos hfu
  have hs' := hs
  rw [isIdentStr, Bool.and_eq_true] at hs'
  obtain ⟨hne, hall⟩ := hs'
  cases hd : s.data with
  | nil => rw [hd] at hne; simp at hne
  | cons c r =>
    have hall' : ∀ x ∈ c :: r, identChar x = true :=
      List.all_eq_true.mp (hd ▸ hall)
    have hc : identChar c = true := hall' c (by simp)
    obtain ⟨h1, h2, h3, h4, h5, h6, h7, h8, h9⟩ := identChar_spec hc
    cases fuel with
    | zero => simp at hfu
    | succ fu =>
      rw [hd] at hfu
      have htake : takeIdent (r ++ cs) = (r, cs) :=
        takeIdent_run r (fun x hx => hall' x (by simp [hx])) cs hcs
      obtain ⟨ann, ha, hm⟩ := h fu (pos + r.length + 1) (by simp at hfu ⊢; omega)
      have hse : s = ⟨c :: r⟩ := by
        cases s with
        | mk data => exact congrArg String.mk hd
      rw [hse]
      refine ⟨(Tok.ident ⟨c :: r⟩, pos) :: ann, ?_, ?_⟩
      · simp [lexGoF, h1, h2, h3, h4, h5, h6, h7, h8, h9, hc, htake, ha]
      · simp [hm]

theorem elemChars_eq (s : String) : elemChars s =
    ' ' :: ' ' :: ' ' :: ' ' :: ' ' :: ' ' :: ' ' :: ' ' ::
      ('"' :: s.data ++ '"' :: ',' :: '\n' :: []) := rfl

theorem LexOk.elems (es : List String) (h : ∀ s ∈ es, strOk s = true) {cs ts} {d : Nat}
    (hc : LexOk cs (d + 1) ts) :
    LexOk (es.flatMap elemChars ++ cs) (d + 1)
      (es.flatMap (fun s => [Tok.str s, Tok.comma]) ++ ts) := by
  induction es with
  | nil => simpa using hc
  | cons s es ih =>
    have hrec := ih (fun x hx => h x (by simp [hx]))
    have hshape : (s :: es).flatMap elemChars ++ cs =
        ' ' :: ' ' :: ' ' :: ' ' :: ' ' :: ' ' :: ' ' :: ' ' ::
          ('"' :: s.data ++ '"' :: ',' :: '\n' :: (es.flatMap elemChars ++ cs)) := by
      simp [elemChars_eq]
    rw [hshape]
    have h0 : LexOk ('\n' :: (es.flatMap elemChars ++ cs)) (d + 1)
        (es.flatMap (fun s => [Tok.str s, Tok.comma]) ++ ts) :=
      LexOk.newlineDeep (Nat.succ_pos d) hrec
    have h1 := LexOk.strTok (h s (by simp)) (LexOk.comma h0)
    simpa using
      LexOk.space (LexOk.space (LexOk.space (LexOk.space
        (LexOk.space (LexOk.space (LexOk.space (LexOk.space h1)))))))

theorem LexOk.expr {e : Expr} (he : exprWF e = true) {cs d ts}
    (hcs : headNotIdent cs = true) (h : LexOk cs d ts) :
    LexOk (fmtExprChars e ++ cs) d (exprToks e ++ ts) := by
  cases e with
  | str s =>
    have := LexOk.strTok (by simpa [exprWF] using he) h
    simpa [fmtExprChars, exprToks] using this
  | ident s =>
    have := LexOk.identTok (by simpa [exprWF] using he) hcs h
    simpa [fmtExprChars, exprToks] using this
  | list es =>
    cases es with
    | nil =>
      have h1 : LexOk cs (d + 1 - 1) ts := by simpa using h
      have := LexOk.lbrack (LexOk.rbrack h1)
      simpa [fmtExprChars, exprToks] using this
    | cons x xs =>
      have hall : ∀ s ∈ x :: xs, strOk s = true := by
        intro s hs
        exact List.all_eq_true.mp (by simpa [exprWF] using he) s hs
      have hclose : LexOk (' ' :: ' ' :: ' ' :: ' ' :: ']' :: cs) (d + 1)
          (Tok.rbrack :: ts) := by
        have h1 : LexOk cs (d + 1 - 1) ts := by simpa using h
        exact LexOk.space (LexOk.space (LexOk.space (LexOk.space (LexOk.rbrack h1))))
      have hel := LexOk.elems (x :: xs) hall (d := d) hclose
      have := LexOk.lbrack (LexOk.newlineDeep (Nat.succ_pos d) hel)
      simpa [fmtExprChars, exprToks, elemChars] using this

theorem LexOk.argLine {a : Arg} (ha : argWF a = true) {cs d ts}
    (h : LexOk cs (d + 1) ts) :
    LexOk (argLineChars a ++ cs) (d + 1) (argToks a ++ Tok.comma :: ts) := by
  have hpost : LexOk (',' :: '\n' :: cs) (d + 1) (Tok.comma :: ts) :=
    LexOk.comma (LexOk.newlineDeep (Nat.succ_pos d) h)
  cases a with
  | pos e =>
    have he := LexOk.expr (by simpa [argWF] using ha) (by rfl) hpost
    have hshape : argLineChars (Arg.pos e) ++ cs =
        ' ' :: ' ' :: ' ' :: ' ' :: (fmtExprChars e ++ ',' :: '\n' :: cs) := by
      simp [argLineChars, fmtArgChars]
    rw [hshape]
    simpa [argToks] using
      LexOk.space (LexOk.space (LexOk.space (LexOk.space he)))
  | kw n v =>
    have hnv : isIdentStr n = true ∧ exprWF v = true := by
      simpa [argWF] using ha
    obtain ⟨hn, hv⟩ := hnv
    have he := LexOk.expr hv (by rfl) hpost
    have hmid : LexOk (' ' :: '=' :: ' ' :: (fmtExprChars v ++ ',' :: '\n' :: cs)) (d + 1)
        (Tok.eq :: (exprToks v ++ Tok.comma :: ts)) :=
      LexOk.space (LexOk.eqTok (LexOk.space he))
    have hid := LexOk.identTok hn (by rfl) hmid
    have hshape : argLineChars (Arg.kw n v) ++ cs =
        ' ' :: ' ' :: ' ' :: ' ' ::
          (n.data ++ ' ' :: '=' :: ' ' :: (fmtExprChars v ++ ',' :: '\n' :: cs)) := by
      simp [argLineChars, fmtArgChars]
    rw [hshape]
    simpa [argToks] using
      LexOk.space (LexOk.space (LexOk.space (LexOk.space hid)))

theorem LexOk.argsChars (args : List Arg) (h : ∀ a ∈ args, argWF a = true) {cs d ts}
    (hc : LexOk cs (d + 1) ts) :
    LexOk (args.flatMap argLineChars ++ cs) (d + 1)
      (args.flatMap (fun a => argToks a ++ [Tok.comma]) ++ ts) := by
  induction args with
  | nil => simpa using hc
  | cons a args ih =>
    have hrec := ih (fun x hx => h x (by simp [hx]))
    have := LexOk.argLine (h a (by simp)) hrec
    simpa [List.append_assoc] using this

theorem LexOk.rule {r : Rule} (hr : ruleWF r = true) {cs ts} (h : LexOk cs 0 ts) :
    LexOk (fmtRuleChars r ++ cs) 0 (ruleToks r ++ ts) := by
  have hka : isIdentStr r.kind = true ∧ ∀ a ∈ r.args, argWF a = true := by
    simpa [ruleWF] using hr
  obtain ⟨hk, hargs'⟩ := hka
  have hclose : LexOk (')' :: '\n' :: cs) 1 (Tok.rparen :: Tok.newline :: ts) := by
    have : LexOk ('\n' :: cs) (1 - 1) (Tok.newline :: ts) := by
      simpa using LexOk.newlineTop h
    exact LexOk.rparen this
  cases hargsE : r.args with
  | nil =>
    have hid := LexOk.identTok hk (by rfl) (LexOk.lparen hclose)
    have hshape : fmtRuleChars r ++ cs =
        r.kind.data ++ '(' :: ')' :: '\n' :: cs := by
      simp [fmtRuleChars, hargsE]
    rw [hshape]
    simpa [ruleToks, hargsE] using hid
  | cons a as =>
    have hall : ∀ x ∈ a :: as, argWF x = true := by
      intro x hx
      exact hargs' x (hargsE ▸ hx)
    have hbody := LexOk.argsChars (a :: as) hall (d := 0) hclose
    have hid := LexOk.identTok hk (by rfl)
      (LexOk.lparen (LexOk.newlineDeep Nat.one_pos hbody))
    have hshape : fmtRuleChars r ++ cs =
        r.kind.data ++ '(' :: '\n' ::
          ((a :: as).flatMap argLineChars ++ ')' :: '\n' :: cs) := by
      simp [fmtRuleChars, hargsE]
    rw [hshape]
    simpa [ruleToks, hargsE, List.append_assoc] using hid

theorem LexOk.rules (rs : List Rule) (h : ∀ r ∈ rs, ruleWF r = true) :
    LexOk (rs.flatMap fmtRuleChars) 0 (rs.flatMap ruleToks) := by
  induction rs with
  | nil => exact LexOk.nil 0
  | cons r rs ih =>
    have hrec := ih (fun x hx => h x (by simp [hx]))
    have := LexOk.rule (h r (by simp)) hrec
    simpa using this

/-- The formatter output re-lexes to exactly the canonical token
sequence, for every well-formed file. -/
theorem lex_Format (f : File) (hf : fileWF f = true) :
    ∃ ann, lex (Format f) = .ok ann ∧ ann.map Prod.fst = fileToks f := by
  have h := LexOk.rules f.stmts (List.all_eq_true.mp (by simpa [fileWF] using hf))
  exact h ((fmtFileChars f).length + 1) 0 (Nat.lt_succ_self _)

theorem parseElems_ok (eof : Nat) (es : List String) :
    ∀ (ann : List PTok) (ts : List Tok),
      ann.map Prod.fst = es.flatMap (fun s => [Tok.str s, Tok.comma]) ++ (Tok.rbrack :: ts) →
      ∃ rest, parseElems eof ann = .ok (es, rest) ∧ rest.map Prod.fst = ts := by
  induction es with
  | nil =>
    intro ann ts hm
    cases ann with
    | nil => simp at hm
    | cons hd rest =>
      obtain ⟨t, p⟩ := hd
      simp at hm
      obtain ⟨hT, hrest⟩ := hm
      subst hT
      exact ⟨rest, by simp [parseElems], hrest⟩
  | cons s es ih =>
    intro ann ts hm
    cases ann with
    | nil => simp at hm
    | cons hd1 ann1 =>
      obtain ⟨t1, p1⟩ := hd1
      cases ann1 with
      | nil => simp at hm
      | cons hd2 ann2 =>
        obtain ⟨t2, p2⟩ := hd2
        simp at hm
        obtain ⟨h1, h2, hrest⟩ := hm
        subst h1
        subst h2
        obtain ⟨rest, hp, hr⟩ := ih ann2 ts hrest
        exact ⟨rest, by simp [parseElems, hp], hr⟩

theorem parseExpr_ok (eof : Nat) (e : Expr) (ann : List PTok) (ts : List Tok)
    (hm : ann.map Prod.fst = exprToks e ++ ts) :
    ∃ rest, parseExpr eof ann = .ok (e, rest) ∧ rest.map Prod.fst = ts := by
  cases e with
  | str s =>
    cases ann with
    | nil => simp [exprToks] at hm
    | cons hd rest =>
      obtain ⟨t, p⟩ := hd
      simp [exprToks] at hm
      obtain ⟨hT, hrest⟩ := hm
      subst hT
      exact ⟨rest, by simp [parseExpr], hrest⟩
  | ident s =>
    cases ann with
    | nil => simp [exprToks] at hm
    | cons hd rest =>
      obtain ⟨t, p⟩ := hd
      simp [exprToks] at hm
      obtain ⟨hT, hrest⟩ := hm
      subst hT
      exact ⟨rest, by simp [parseExpr], hrest⟩
  | list es =>
    cases ann with
    | nil => simp [exprToks] at hm
    | cons hd ann1 =>
      obtain ⟨t, p⟩ := hd
      simp [exprToks] at hm
      obtain ⟨hT, hrest⟩ := hm
      subst hT
      obtain ⟨rest, hp, hr⟩ := parseElems_ok eof es ann1 ts (by simpa using hrest)
      exact ⟨rest, by simp [parseExpr, hp], hr⟩

theorem parseArgs_ok (eof : Nat) (args : List Arg) :
    ∀ (ann : List PTok) (ts : List Tok) (fuel : Nat),
      ann.map Prod.fst =
        args.flatMap (fun a => argToks a ++ [Tok.comma]) ++ (Tok.rparen :: ts) →
      ann.length < fuel →
      ∃ rest, parseArgsF eof fuel ann = .ok (args, rest) ∧ rest.map Prod.fst = ts := by
  induction args with
  | nil =>
    intro ann ts fuel hm hfu
    cases ann with
    | nil => simp at hm
    | cons hd rest =>
      obtain ⟨t, p⟩ := hd
      simp at hm
      obtain ⟨hT, hrest⟩ := hm
      subst hT
      cases fuel with
      | zero => omega
      | succ fu => exact ⟨rest, by simp [parseArgsF], hrest⟩
  | cons a args ih =>
    intro ann ts fuel hm hfu
    cases a with
    | kw n v =>
      cases ann with
      | nil => simp [argToks] at hm
      | cons hd1 ann1 =>
        obtain ⟨t1, p1⟩ := hd1
        cases ann1 with
        | nil => simp [argToks] at hm
        | cons hd2 ann2 =>
          obtain ⟨t2, p2⟩ := hd2
          simp [argToks] at hm
          obtain ⟨h1, h2, hrest⟩ := hm
          subst h1
          subst h2
          obtain ⟨rest2, hpe, hm2⟩ := parseExpr_ok eof v ann2
            (Tok.comma :: (args.flatMap (fun a => argToks a ++ [Tok.comma]) ++
              (Tok.rparen :: ts))) (by simpa using hrest)
          cases rest2 with
          | nil => simp at hm2
          | cons hd3 rest3 =>
            obtain ⟨t3, p3⟩ := hd3
            simp at hm2
            obtain ⟨h3, hm3⟩ := hm2
            subst h3
            cases fuel with
            | zero => omega
            | succ fu =>
              obtain ⟨rest, hq, hr⟩ := ih rest3 ts fu (by simpa using hm3)
                (by
                  have e1 := congrArg List.length hrest
                  have e2 := congrArg List.length hm3
                  simp [argToks, exprToks] at e1 e2
                  simp at hfu
                  omega)
              exact ⟨rest, by simp [parseArgsF, hpe, hq], hr⟩
    | pos e =>
      cases e with
      | str s =>
        cases ann with
        | nil => simp [argToks, exprToks] at hm
        | cons hd1 ann1 =>
          obtain ⟨t1, p1⟩ := hd1
          cases ann1 with
          | nil => simp [argToks, exprToks] at hm
          | cons hd2 ann2 =>
            obtain ⟨t2, p2⟩ := hd2
            simp [argToks, exprToks] at hm
            obtain ⟨h1, h2, hrest⟩ := hm
            subst h1
            subst h2
            cases fuel with
            | zero => omega
            | succ fu =>
              obtain ⟨rest, hq, hr⟩ := ih ann2 ts fu hrest (by simp at hfu; omega)
              exact ⟨rest, by simp [parseArgsF, parseExpr, hq], hr⟩
      | ident s =>
        cases ann with
        | nil => simp [argToks, exprToks] at hm
        | cons hd1 ann1 =>
          obtain ⟨t1, p1⟩ := hd1
          cases ann1 with
          | nil => simp [argToks, exprToks] at hm
          | cons hd2 ann2 =>
            obtain ⟨t2, p2⟩ := hd2
            simp [argToks, exprToks] at hm
            obtain ⟨h1, h2, hrest⟩ := hm
            subst h1
            subst h2
            cases fuel with
            | zero => omega
            | succ fu =>
              obtain ⟨rest, hq, hr⟩ := ih ann2 ts fu hrest (by simp at hfu; omega)
              exact ⟨rest, by simp [parseArgsF, parseExpr, hq], hr⟩
      | list es =>
        cases ann with
        | nil => simp [argToks, exprToks] at hm
        | cons hd1 ann1 =>
          obtain ⟨t1, p1⟩ := hd1
          simp [argToks, exprToks] at hm
          obtain ⟨h1, hrest⟩ := hm
          subst h1
          obtain ⟨rest2, hpe, hm2⟩ := parseElems_ok eof es ann1
            (Tok.comma :: (args.flatMap (fun a => argToks a ++ [Tok.comma]) ++
              (Tok.rparen :: ts))) (by simpa using hrest)
          cases rest2 with
          | nil => simp at hm2
          | cons hd3 rest3 =>
            obtain ⟨t3, p3⟩ := hd3
            simp at hm2
            obtain ⟨h3, hm3⟩ := hm2
            subst h3
            cases fuel with
            | zero => omega
            | succ fu =>
              obtain ⟨rest, hq, hr⟩ := ih rest3 ts fu (by simpa using hm3)
                (by
                  have e1 := congrArg List.length hrest
                  have e2 := congrArg List.length hm3
                  simp [argToks, exprToks] at e1 e2
                  simp at hfu
                  omega)
              exact ⟨rest, by simp [parseArgsF, parseExpr, hpe, hq], hr⟩

theorem parseStmts_ok (eof : Nat) (rs : List Rule) :
    ∀ (ann : List PTok) (fuel : Nat),
      ann.map Prod.fst = rs.flatMap ruleToks → ann.length < fuel →
      parseStmtsF eof fuel ann = .ok rs := by
  induction rs with
  | nil =>
    intro ann fuel hm hfu
    have : ann = [] := by simpa using hm
    subst this
    cases fuel with
    | zero => omega
    | succ fu => simp [parseStmtsF]
  | cons r rs ih =>
    intro ann fuel hm hfu
    obtain ⟨k, args⟩ := r
    cases ann with
    | nil => simp [ruleToks] at hm
    | cons hd1 ann1 =>
      obtain ⟨t1, p1⟩ := hd1
      cases ann1 with
      | nil => simp [ruleToks] at hm
      | cons hd2 ann2 =>
        obtain ⟨t2, p2⟩ := hd2
        simp [ruleToks] at hm
        obtain ⟨h1, h2, hrest⟩ := hm
        subst h1
        subst h2
        obtain ⟨rest, hq, hr⟩ := parseArgs_ok eof args ann2
          (Tok.newline :: rs.flatMap ruleToks) (ann2.length + 1)
          (by simpa using hrest) (Nat.lt_succ_self _)
        cases rest with
        | nil => simp at hr
        | cons hd3 rest3 =>
          obtain ⟨t3, p3⟩ := hd3
          simp at hr
          obtain ⟨h3, hr3⟩ := hr
          subst h3
          cases fuel with
          | zero => omega
          | succ fu =>
            have hrec := ih rest3 fu hr3 (by
              have e1 := congrArg List.length hrest
              have e2 := congrArg List.length hr3
              simp [ruleToks, argToks, exprToks] at e1 e2
              simp at hfu
              omega)
            simp [parseStmtsF, hq, hrec]

/-- Round trip at tree level: parsing the canonical rendering of any
well-formed file recovers exactly its statements. -/
theorem Parse_Format (f : File) (hf : fileWF f = true) (p : String) :
    Parse p (Format f) = .ok ⟨p, f.stmts⟩ := by
  obtain ⟨ann, hlex, hm⟩ := lex_Format f hf
  have hps := parseStmts_ok (Format f).length f.stmts ann (ann.length + 1)
    (by simpa [fileToks] using hm) (Nat.lt_succ_self _)
  simp [Parse, parseToks, hlex, hps]

theorem takeStr_chars : ∀ cs p, takeStr cs = some p → ∀ c ∈ p.1, ¬(c = '"') := by
  intro cs
  induction cs with
  | nil => intro p h; simp [takeStr] at h
  | cons c cs ih =>
    intro p h
    by_cases hc : c = '"'
    · simp [takeStr, hc] at h
      subst h
      intro x hx
      simp at hx
    · simp [takeStr, hc] at h
      cases hq : takeStr cs with
      | none => rw [hq] at h; simp at h
      | some q =>
        rw [hq] at h
        simp at h
        subst h
        intro x hx
        simp at hx
        rcases hx with hx | hx
        · rw [hx]; exact hc
        · exact ih q hq x hx

theorem takeIdent_chars : ∀ cs, ∀ x ∈ (takeIdent cs).1, identChar x = true := by
  intro cs
  induction cs with
  | nil => intro x hx; simp [takeIdent] at hx
  | cons c cs ih =>
    intro x hx
    by_cases hc : identChar c
    · simp [takeIdent, hc] at hx
      rcases hx with hx | hx
      · rw [hx]; exact hc
      · exact ih x hx
    · simp [takeIdent, hc] at hx

theorem annWF_cons {tok : Tok} {pos : Nat} {ts : List PTok}
    (htok : tokWF tok = true) (hts : annWF ts) : annWF ((tok, pos) :: ts) := by
  intro pt hpt
  rcases List.mem_cons.mp hpt with h | h
  · rw [h]; exact htok
  · exact hts pt h

theorem annWF_of_eq {ts ann : List PTok} (h : Except.ok (ε := LexErr) ts = Except.ok ann)
    (hts : annWF ts) : annWF ann := by
  simp at h
  rw [← h]
  exact hts

theorem lexGoF_wf (fuel : Nat) : ∀ chars d pos ann,
    lexGoF fuel chars d pos = .ok ann → annWF ann := by
  induction fuel with
  | zero => intro chars d pos ann h; simp [lexGoF] at h
  | succ fu ih =>
    intro chars d pos ann h
    cases chars with
    | nil =>
      simp [lexGoF] at h
      subst h
      intro pt hpt
      simp at hpt
    | cons c cs =>
      rw [lexGoF] at h
      by_cases h1 : c = ' '
      · rw [if_pos h1] at h
        exact ih _ _ _ _ h
      · rw [if_neg h1] at h
        by_cases h2 : c = '\n'
        · rw [if_pos h2] at h
          by_cases hd : d = 0
          · rw [if_pos hd] at h
            cases hrec : lexGoF fu cs d (pos + 1) with
            | error e => simp [hrec] at h
            | ok ts =>
              simp [hrec] at h
              subst h
              exact annWF_cons rfl (ih _ _ _ _ hrec)
          · rw [if_neg hd] at h
            exact ih _ _ _ _ h
        · rw [if_neg h2] at h
          by_cases h3 : c = '('
          · rw [if_pos h3] at h
            cases hrec : lexGoF fu cs (d + 1) (pos + 1) with
            | error e => simp [hrec] at h
            | ok ts =>
              simp [hrec] at h
              subst h
              exact annWF_cons rfl (ih _ _ _ _ hrec)
          · rw [if_neg h3] at h
            by_cases h4 : c = ')'
            · rw [if_pos h4] at h
              cases hrec : lexGoF fu cs (d - 1) (pos + 1) with
              | error e => simp [hrec] at h
              | ok ts =>
                simp [hrec] at h
                subst h
                exact annWF_cons rfl (ih _ _ _ _ hrec)
            · rw [if_neg h4] at h
              by_cases h5 : c = '['
              · rw [if_pos h5] at h
                cases hrec : lexGoF fu cs (d + 1) (pos + 1) with
                | error e => simp [hrec] at h
                | ok ts =>
                  simp [hrec] at h
                  subst h
                  exact annWF_cons rfl (ih _ _ _ _ hrec)
              · rw [if_neg h5] at h
                by_cases h6 : c = ']'
                · rw [if_pos h6] at h
                  cases hrec : lexGoF fu cs (d - 1) (pos + 1) with
                  | error e => simp [hrec] at h
                  | ok ts =>
                    simp [hrec] at h
                    subst h
                    exact annWF_cons rfl (ih _ _ _ _ hrec)
                · rw [if_neg h6] at h
                  by_cases h7 : c = ','
                  · rw [if_pos h7] at h
                    cases hrec : lexGoF fu cs d (pos + 1) with
                    | error e => simp [hrec] at h
                    | ok ts =>
                      simp [hrec] at h
                      subst h
                      exact annWF_cons rfl (ih _ _ _ _ hrec)
                  · rw [if_neg h7] at h
                    by_cases h8 : c = '='
                    · rw [if_pos h8] at h
                      cases hrec : lexGoF fu cs d (pos + 1) with
                      | error e => simp [hrec] at h
                      | ok ts =>
                        simp [hrec] at h
                        subst h
                        exact annWF_cons rfl (ih _ _ _ _ hrec)
                    · rw [if_neg h8] at h
                      by_cases h9 : c = '"'
                      · rw [if_pos h9] at h
                        cases hq : takeStr cs with
                        | none => simp [hq] at h
                        | some q =>
                          cases hrec : lexGoF fu q.2 d (pos + q.1.length + 2) with
                          | error e => simp [hq, hrec] at h
                          | ok ts =>
                            simp [hq, hrec] at h
                            subst h
                            refine annWF_cons ?_ (ih _ _ _ _ hrec)
                            simp [tokWF, strOk]
                            intro x hx
                            exact takeStr_chars cs q hq x hx
                      · rw [if_neg h9] at h
                        by_cases hid : identChar c = true
                        · rw [if_pos hid] at h
                          cases hrec : lexGoF fu (takeIdent cs).2 d
                              (pos + (takeIdent cs).1.length + 1) with
                          | error e => simp [hrec] at h
                          | ok ts =>
                            simp [hrec] at h
                            subst h
                            refine annWF_cons ?_ (ih _ _ _ _ hrec)
                            simp [tokWF, isIdentStr]
                            exact ⟨hid, takeIdent_chars cs⟩
                        · rw [if_neg hid] at h
                          simp at h

theorem lex_wf (s : String) (ann : List PTok) (h : lex s = .ok ann) : annWF ann :=
  lexGoF_wf _ _ _ _ _ h

theorem annWF_tail {x : PTok} {l : List PTok} (h : annWF (x :: l)) : annWF l :=
  fun pt hpt => h pt (List.mem_cons_of_mem _ hpt)

theorem parseElems_wf (eof : Nat) : ∀ (ann : List PTok) (es : List String) (rest : List PTok),
    annWF ann → parseElems eof ann = .ok (es, rest) →
    (∀ s ∈ es, strOk s = true) ∧ annWF rest := by
  intro ann
  induction ann using parseElems.induct with
  | eof => exact eof
  | case1 q rest =>
    intro es rest' hwf hok
    simp [parseElems] at hok
    obtain ⟨h1, h2⟩ := hok
    subst h1
    subst h2
    exact ⟨by simp, annWF_tail hwf⟩
  | case2 s q1 q2 rest e herr =>
    intro es rest' hwf hok
    simp [parseElems, herr] at hok
  | case3 s q1 q2 rest pr hp ih =>
    intro es rest' hwf hok
    simp [parseElems, hp] at hok
    obtain ⟨h1, h2⟩ := hok
    subst h1
    subst h2
    obtain ⟨hels, hr⟩ := ih pr.1 pr.2 (annWF_tail (annWF_tail hwf)) (by rw [hp])
    refine ⟨?_, hr⟩
    intro x hx
    rcases List.mem_cons.mp hx with hx | hx
    · subst hx
      have := hwf (Tok.str x, q1) (by simp)
      simpa [tokWF] using this
    · exact hels x hx
  | case4 s q1 q2 rest =>
    intro es rest' hwf hok
    simp [parseElems] at hok
    obtain ⟨h1, h2⟩ := hok
    subst h1
    subst h2
    refine ⟨?_, annWF_tail (annWF_tail hwf)⟩
    intro x hx
    simp at hx
    subst hx
    have := hwf (Tok.str x, q1) (by simp)
    simpa [tokWF] using this
  | case5 s q t p tail hn1 hn2 =>
    intro es rest' hwf hok
    simp [parseElems, hn1, hn2] at hok
  | case6 s q =>
    intro es rest' hwf hok
    simp [parseElems] at hok
  | case7 t p tail hn1 hn2 hn3 hn4 hn5 =>
    intro es rest' hwf hok
    rw [parseElems] at hok
    · simp at hok
    · exact hn1
    · exact hn2
    · exact hn3
    · exact hn4
    · exact hn5
  | case8 =>
    intro es rest' hwf hok
    simp [parseElems] at hok

theorem parseExpr_wf (eof : Nat) (ann : List PTok) (e : Expr) (rest : List PTok)
    (hwf : annWF ann) (hok : parseExpr eof ann = .ok (e, rest)) :
    exprWF e = true ∧ annWF rest := by
  cases ann with
  | nil => simp [parseExpr] at hok
  | cons hd tl =>
    obtain ⟨t, p⟩ := hd
    cases t with
    | str s =>
      simp [parseExpr] at hok
      obtain ⟨h1, h2⟩ := hok
      subst h1
      subst h2
      refine ⟨?_, annWF_tail hwf⟩
      have := hwf (Tok.str s, p) (by simp)
      simpa [exprWF, tokWF] using this
    | ident s =>
      simp [parseExpr] at hok
      obtain ⟨h1, h2⟩ := hok
      subst h1
      subst h2
      refine ⟨?_, annWF_tail hwf⟩
      have := hwf (Tok.ident s, p) (by simp)
      simpa [exprWF, tokWF] using this
    | lbrack =>
      cases hpe : parseElems eof tl with
      | error e2 => simp [parseExpr, hpe] at hok
      | ok q =>
        simp [parseExpr, hpe] at hok
        obtain ⟨h1, h2⟩ := hok
        subst h1
        subst h2
        obtain ⟨hels, hr⟩ := parseElems_wf eof tl q.1 q.2 (annWF_tail hwf) (by rw [hpe])
        refine ⟨?_, hr⟩
        simpa [exprWF] using hels
    | lparen => simp [parseExpr] at hok
    | rparen => simp [parseExpr] at hok
    | rbrack => simp [parseExpr] at hok
    | comma => simp [parseExpr] at hok
    | eq => simp [parseExpr] at hok
    | newline => simp [parseExpr] at hok

theorem parseArgsF_wf (eof : Nat) : ∀ (fuel : Nat) (ann : List PTok) (args : List Arg)
    (rest : List PTok), annWF ann → parseArgsF eof fuel ann = .ok (args, rest) →
    (∀ a ∈ args, argWF a = true) ∧ annWF rest := by
  intro fuel
  induction fuel with
  | zero => intro ann args rest hwf hok; simp [parseArgsF] at hok
  | succ fu ih =>
    intro ann args rest hwf hok
    cases ann with
    | nil => simp [parseArgsF, parseExpr] at hok
    | cons hd tl =>
      obtain ⟨t1, p1⟩ := hd
      cases t1
      case rparen =>
        simp [parseArgsF] at hok
        obtain ⟨h1, h2⟩ := hok
        subst h1
        subst h2
        exact ⟨by simp, annWF_tail hwf⟩
      case ident n =>
        have hn : isIdentStr n = true := by
          have := hwf (Tok.ident n, p1) (by simp)
          simpa [tokWF] using this
        cases tl with
        | nil => simp [parseArgsF, parseExpr] at hok
        | cons hd2 tl2 =>
          obtain ⟨t2, p2⟩ := hd2
          cases t2
          case eq =>
            cases hpe : parseExpr eof tl2 with
            | error e => simp [parseArgsF, hpe] at hok
            | ok pr =>
              obtain ⟨hprWF, hrestWF⟩ := parseExpr_wf eof tl2 pr.1 pr.2
                (annWF_tail (annWF_tail hwf)) (by rw [hpe])
              cases hp2 : pr.2 with
              | nil => simp [parseArgsF, hpe, hp2] at hok
              | cons hd3 tl3 =>
                obtain ⟨t3, p3⟩ := hd3
                have htl3 : annWF tl3 := annWF_tail (hp2 ▸ hrestWF)
                cases t3
                case comma =>
                  cases hq : parseArgsF eof fu tl3 with
                  | error e => simp [parseArgsF, hpe, hp2, hq] at hok
                  | ok qr =>
                    simp [parseArgsF, hpe, hp2, hq] at hok
                    obtain ⟨h1, h2⟩ := hok
                    subst h1
                    subst h2
                    obtain ⟨hargs, hrest⟩ := ih tl3 qr.1 qr.2 htl3 (by rw [hq])
                    refine ⟨?_, hrest⟩
                    intro a ha
                    rcases List.mem_cons.mp ha with ha | ha
                    · subst ha
                      simp [argWF]
                      exact ⟨hn, hprWF⟩
                    · exact hargs a ha
                case rparen =>
                  simp [parseArgsF, hpe, hp2] at hok
                  obtain ⟨h1, h2⟩ := hok
                  subst h1
                  subst h2
                  refine ⟨?_, htl3⟩
                  intro a ha
                  simp at ha
                  subst ha
                  simp [argWF]
                  exact ⟨hn, hprWF⟩
                all_goals simp [parseArgsF, hpe, hp2] at hok
          case comma =>
            cases hq : parseArgsF eof fu tl2 with
            | error e => simp [parseArgsF, parseExpr, hq] at hok
            | ok qr =>
              simp [parseArgsF, parseExpr, hq] at hok
              obtain ⟨h1, h2⟩ := hok
              subst h1
              subst h2
              obtain ⟨hargs, hrest⟩ := ih tl2 qr.1 qr.2 (annWF_tail (annWF_tail hwf))
                (by rw [hq])
              refine ⟨?_, hrest⟩
              intro a ha
              rcases List.mem_cons.mp ha with ha | ha
              · subst ha
                simpa [argWF, exprWF] using hn
              · exact hargs a ha
          case rparen =>
            simp [parseArgsF, parseExpr] at hok
            obtain ⟨h1, h2⟩ := hok
            subst h1
            subst h2
            refine ⟨?_, annWF_tail (annWF_tail hwf)⟩
            intro a ha
            simp at ha
            subst ha
            simpa [argWF, exprWF] using hn
          all_goals simp [parseArgsF, parseExpr] at hok
      case str s =>
        have hs : strOk s = true := by
          have := hwf (Tok.str s, p1) (by simp)
          simpa [tokWF] using this
        cases tl with
        | nil => simp [parseArgsF, parseExpr] at hok
        | cons hd2 tl2 =>
          obtain ⟨t2, p2⟩ := hd2
          cases t2
          case comma =>
            cases hq : parseArgsF eof fu tl2 with
            | error e => simp [parseArgsF, parseExpr, hq] at hok
            | ok qr =>
              simp [parseArgsF, parseExpr, hq] at hok
              obtain ⟨h1, h2⟩ := hok
              subst h1
              subst h2
              obtain ⟨hargs, hrest⟩ := ih tl2 qr.1 qr.2 (annWF_tail (annWF_tail hwf))
                (by rw [hq])
              refine ⟨?_, hrest⟩
              intro a ha
              rcases List.mem_cons.mp ha with ha | ha
              · subst ha
                simpa [argWF, exprWF] using hs
              · exact hargs a ha
          case rparen =>
            simp [parseArgsF, parseExpr] at hok
            obtain ⟨h1, h2⟩ := hok
            subst h1
            subst h2
            refine ⟨?_, annWF_tail (annWF_tail hwf)⟩
            intro a ha
            simp at ha
            subst ha
            simpa [argWF, exprWF] using hs
          all_goals simp [parseArgsF, parseExpr] at hok
      case lbrack =>
        cases hpe : parseElems eof tl with
        | error e => simp [parseArgsF, parseExpr, hpe] at hok
        | ok q =>
          obtain ⟨hels, hq2⟩ := parseElems_wf eof tl q.1 q.2 (annWF_tail hwf) (by rw [hpe])
          have hlist : exprWF (Expr.list q.1) = true := by
            simpa [exprWF] using hels
          cases hq2E : q.2 with
          | nil => simp [parseArgsF, parseExpr, hpe, hq2E] at hok
          | cons hd3 tl3 =>
            obtain ⟨t3, p3⟩ := hd3
            have htl3 : annWF tl3 := annWF_tail (hq2E ▸ hq2)
            cases t3
            case comma =>
              cases hq : parseArgsF eof fu tl3 with
              | error e => simp [parseArgsF, parseExpr, hpe, hq2E, hq] at hok
              | ok qr =>
                simp [parseArgsF, parseExpr, hpe, hq2E, hq] at hok
                obtain ⟨h1, h2⟩ := hok
                subst h1
                subst h2
                obtain ⟨hargs, hrest⟩ := ih tl3 qr.1 qr.2 htl3 (by rw [hq])
                refine ⟨?_, hrest⟩
                intro a ha
                rcases List.mem_cons.mp ha with ha | ha
                · subst ha
                  simpa [argWF] using hlist
                · exact hargs a ha
            case rparen =>
              simp [parseArgsF, parseExpr, hpe, hq2E] at hok
              obtain ⟨h1, h2⟩ := hok
              subst h1
              subst h2
              refine ⟨?_, htl3⟩
              intro a ha
              simp at ha
              subst ha
              simpa [argWF] using hlist
            all_goals simp [parseArgsF, parseExpr, hpe, hq2E] at hok
      all_goals simp [parseArgsF, parseExpr] at hok

theorem parseStmtsF_wf (eof : Nat) : ∀ (fuel : Nat) (ann : List PTok) (rs : List Rule),
    annWF ann → parseStmtsF eof fuel ann = .ok rs → ∀ r ∈ rs, ruleWF r = true := by
  intro fuel
  induction fuel with
  | zero => intro ann rs hwf hok; simp [parseStmtsF] at hok
  | succ fu ih =>
    intro ann rs hwf hok
    cases ann with
    | nil =>
      simp [parseStmtsF] at hok
      subst hok
      simp
    | cons hd tl =>
      obtain ⟨t1, p1⟩ := hd
      cases t1
      case newline => exact ih tl rs (annWF_tail hwf) (by simpa [parseStmtsF] using hok)
      case ident k =>
        have hk : isIdentStr k = true := by
          have := hwf (Tok.ident k, p1) (by simp)
          simpa [tokWF] using this
        cases tl with
        | nil => simp [parseStmtsF] at hok
        | cons hd2 tl2 =>
          obtain ⟨t2, p2⟩ := hd2
          cases t2
          case lparen =>
            cases hq : parseArgsF eof (tl2.length + 1) tl2 with
            | error e => simp [parseStmtsF, hq] at hok
            | ok pr =>
              obtain ⟨hargs, hrest⟩ := parseArgsF_wf eof (tl2.length + 1) tl2 pr.1 pr.2
                (annWF_tail (annWF_tail hwf)) (by rw [hq])
              have hruleWF : ruleWF (Rule.mk k pr.1) = true := by
                simp [ruleWF, hk]
                exact hargs
              cases hp2 : pr.2 with
              | nil =>
                simp [parseStmtsF, hq, hp2] at hok
                subst hok
                intro r hr
                simp at hr
                subst hr
                exact hruleWF
              | cons hd3 tl3 =>
                obtain ⟨t3, p3⟩ := hd3
                cases t3
                case newline =>
                  cases hrec : parseStmtsF eof fu tl3 with
                  | error e => simp [parseStmtsF, hq, hp2, hrec] at hok
                  | ok rs2 =>
                    simp [parseStmtsF, hq, hp2, hrec] at hok
                    subst hok
                    intro r hr
                    rcases List.mem_cons.mp hr with hr | hr
                    · subst hr; exact hruleWF
                    · exact ih tl3 rs2 (annWF_tail (hp2 ▸ hrest)) hrec r hr
                all_goals simp [parseStmtsF, hq, hp2] at hok
          all_goals simp [parseStmtsF] at hok
      all_goals simp [parseStmtsF] at hok

/-- A successful `Parse` yields a well-formed file carrying the given
path. -/
theorem Parse_wf (p s : String) (f : File) (h : Parse p s = .ok f) :
    fileWF f = true ∧ f.path = p := by
  unfold Parse parseToks at h
  cases hl : lex s with
  | error e => simp [hl] at h
  | ok ann =>
    cases hq : parseStmtsF s.length (ann.length + 1) ann with
    | error e => simp [hl, hq] at h
    | ok rs =>
      simp [hl, hq] at h
      subst h
      refine ⟨?_, rfl⟩
      simp [fileWF]
      exact parseStmtsF_wf s.length (ann.length + 1) ann rs (lex_wf s ann hl) hq

theorem sortStrings_sorted (l : List String) : (sortStrings l).Sorted (· ≤ ·) :=
  List.sorted_insertionSort _ l

theorem sortStrings_idem (l : List String) :
    sortStrings (sortStrings l) = sortStrings l :=
  List.Sorted.insertionSort_eq (sortStrings_sorted l)

theorem dedupStrings_idem (l : List String) :
    dedupStrings (dedupStrings l) = dedupStrings l :=
  List.dedup_idem

theorem dedupStrings_sorted (l : List String) (h : l.Sorted (· ≤ ·)) :
    (dedupStrings l).Sorted (· ≤ ·) :=
  List.Pairwise.sublist (List.dedup_sublist l) h

theorem sortStrings_fix_pipeline (es : List String) :
    sortStrings (dedupStrings (sortStrings es)) = dedupStrings (sortStrings es) :=
  List.Sorted.insertionSort_eq (dedupStrings_sorted _ (sortStrings_sorted es))

theorem passAttr_idem (path1 path2 pn1 pn2 : String) (ap : String → Bool)
    (f : List String → List String) (hf : ∀ l, f (f l) = f l) (a : Arg) :
    passAttr path2 pn2 ap f (passAttr path1 pn1 ap f a).1 =
      ((passAttr path1 pn1 ap f a).1, []) := by
  cases a with
  | pos e => simp [passAttr]
  | kw n v =>
    cases v with
    | str s => simp [passAttr]
    | ident s => simp [passAttr]
    | list es =>
      by_cases hap : ap n
      · by_cases heq : f es = es
        · simp [passAttr, hap, heq]
        · simp [passAttr, hap, heq, hf es]
      · simp [passAttr, hap]

theorem passAttr_sort_val (cfg : RewriteConfig) (p n : String) (es : List String)
    (hap : sortableAttr cfg n = true) :
    (passAttr p "sort-list-attribute" (sortableAttr cfg) sortStrings
      (Arg.kw n (.list es))).1 = Arg.kw n (.list (sortStrings es)) := by
  by_cases heq : sortStrings es = es
  · simp [passAttr, hap, heq]
  · simp [passAttr, hap, heq]

theorem passAttr_dedup_val (p n : String) (es : List String) :
    (passAttr p "deduplicate-list-entries" (fun _ => true) dedupStrings
      (Arg.kw n (.list es))).1 = Arg.kw n (.list (dedupStrings es)) := by
  by_cases heq : dedupStrings es = es
  · simp [passAttr, heq]
  · simp [passAttr, heq]

theorem passAttr_pipeline_sort_fix (cfg : RewriteConfig) (p1 p2 p3 : String) (a : Arg) :
    passAttr p3 "sort-list-attribute" (sortableAttr cfg) sortStrings
      ((passAttr p2 "deduplicate-list-entries" (fun _ => true) dedupStrings
        ((passAttr p1 "sort-list-attribute" (sortableAttr cfg) sortStrings a).1)).1) =
    (((passAttr p2 "deduplicate-list-entries" (fun _ => true) dedupStrings
        ((passAttr p1 "sort-list-attribute" (sortableAttr cfg) sortStrings a).1)).1), []) := by
  cases a with
  | pos e => simp [passAttr]
  | kw n v =>
    cases v with
    | str s => simp [passAttr]
    | ident s => simp [passAttr]
    | list es =>
      by_cases hap : sortableAttr cfg n
      · rw [passAttr_sort_val cfg p1 n es hap, passAttr_dedup_val]
        simp [passAttr, hap, sortStrings_fix_pipeline es]
      · have h1 : (passAttr p1 "sort-list-attribute" (sortableAttr cfg) sortStrings
            (Arg.kw n (.list es))).1 = Arg.kw n (.list es) := by
          simp [passAttr, hap]
        rw [h1, passAttr_dedup_val]
        simp [passAttr, hap]

theorem mapPair_fix {α β : Type} (g : α → α × List β) (l : List α)
    (h : ∀ a ∈ l, g a = (a, [])) :
    (l.map fun a => (g a).1) = l ∧ (l.flatMap fun a => (g a).2) = [] := by
  induction l with
  | nil => simp
  | cons a l ih =>
    obtain ⟨h1, h2⟩ := ih fun x hx => h x (by simp [hx])
    have ha := h a (by simp)
    simp [ha, h1, h2]

theorem passRule_fix (path pn : String) (ap : String → Bool)
    (f : List String → List String) (r : Rule)
    (h : ∀ a ∈ r.args, passAttr path pn ap f a = (a, [])) :
    passRule path pn ap f r = (r, []) := by
  obtain ⟨h1, h2⟩ := mapPair_fix (passAttr path pn ap f) r.args h
  unfold passRule
  rw [h1, h2]

theorem passFile_disabled (cfg : RewriteConfig) (pn : String) (ap : String → Bool)
    (f : List String → List String) (file : File)
    (hd : cfg.DisableRewrites.contains pn = true) :
    passFile cfg pn ap f file = (file, []) := by
  have hd' : pn ∈ cfg.DisableRewrites := by simpa using hd
  simp [passFile, hd']

theorem passFile_fix (cfg : RewriteConfig) (pn : String) (ap : String → Bool)
    (f : List String → List String) (file : File)
    (h : ∀ r ∈ file.stmts, passRule file.path pn ap f r = (r, [])) :
    passFile cfg pn ap f file = (file, []) := by
  by_cases hd : pn ∈ cfg.DisableRewrites
  · simp [passFile, hd]
  · obtain ⟨h1, h2⟩ := mapPair_fix (passRule file.path pn ap f) file.stmts h
    simp [passFile, hd, h1, h2]

theorem passFile_path (cfg : RewriteConfig) (pn : String) (ap : String → Bool)
    (f : List String → List String) (file : File) :
    (passFile cfg pn ap f file).1.path = file.path := by
  unfold passFile
  split
  · rfl
  · rfl

theorem Rewrite_path (cfg : RewriteConfig) (f : File) :
    (Rewrite cfg f).1.path = f.path := by
  unfold Rewrite
  rw [passFile_path, passFile_path]

theorem passRule_args (path pn : String) (ap : String → Bool)
    (f : List String → List String) (r : Rule) :
    (passRule path pn ap f r).1.args =
      r.args.map fun a => (passAttr path pn ap f a).1 := rfl

/-- Rewriting is idempotent: the second full pipeline run leaves the
tree unchanged and logs nothing. -/
theorem Rewrite_idem (cfg : RewriteConfig) (f : File) :
    Rewrite cfg (Rewrite cfg f).1 = ((Rewrite cfg f).1, ⟨[]⟩) := by
  by_cases hs : "sort-list-attribute" ∈ cfg.DisableRewrites
  <;> by_cases hd : "deduplicate-list-entries" ∈ cfg.DisableRewrites
  · simp [Rewrite, passFile, hs, hd]
  · -- sort disabled, dedup enabled
    have hF2 : (Rewrite cfg f).1 =
        ⟨f.path, f.stmts.map fun r =>
          (passRule f.path "deduplicate-list-entries" (fun _ => true) dedupStrings r).1⟩ := by
      simp [Rewrite, passFile, hs, hd]
    have hfix1 : passFile cfg "sort-list-attribute" (sortableAttr cfg) sortStrings
        (Rewrite cfg f).1 = ((Rewrite cfg f).1, []) :=
      passFile_disabled _ _ _ _ _ (by simpa using hs)
    have hfix2 : passFile cfg "deduplicate-list-entries" (fun _ => true) dedupStrings
        (Rewrite cfg f).1 = ((Rewrite cfg f).1, []) := by
      apply passFile_fix
      rw [hF2]
      intro r2 hr2
      simp at hr2
      obtain ⟨r0, hr0, rfl⟩ := hr2
      apply passRule_fix
      intro a2 ha2
      rw [passRule_args] at ha2
      obtain ⟨a0, ha0, rfl⟩ := List.mem_map.mp ha2
      exact passAttr_idem _ _ _ _ _ _ dedupStrings_idem a0
    generalize hG : (Rewrite cfg f).1 = G at hfix1 hfix2 ⊢
    simp [Rewrite, hfix1, hfix2]
  · -- sort enabled, dedup disabled
    have hF2 : (Rewrite cfg f).1 =
        ⟨f.path, f.stmts.map fun r =>
          (passRule f.path "sort-list-attribute" (sortableAttr cfg) sortStrings r).1⟩ := by
      simp [Rewrite, passFile, hs, hd]
    have hfix1 : passFile cfg "sort-list-attribute" (sortableAttr cfg) sortStrings
        (Rewrite cfg f).1 = ((Rewrite cfg f).1, []) := by
      apply passFile_fix
      rw [hF2]
      intro r2 hr2
      simp at hr2
      obtain ⟨r0, hr0, rfl⟩ := hr2
      apply passRule_fix
      intro a2 ha2
      rw [passRule_args] at ha2
      obtain ⟨a0, ha0, rfl⟩ := List.mem_map.mp ha2
      exact passAttr_idem _ _ _ _ _ _ sortStrings_idem a0
    have hfix2 : passFile cfg "deduplicate-list-entries" (fun _ => true) dedupStrings
        (Rewrite cfg f).1 = ((Rewrite cfg f).1, []) :=
      passFile_disabled _ _ _ _ _ (by simpa using hd)
    generalize hG : (Rewrite cfg f).1 = G at hfix1 hfix2 ⊢
    simp [Rewrite, hfix1, hfix2]
  · -- both enabled
    have hF2 : (Rewrite cfg f).1 =
        ⟨f.path, (f.stmts.map fun r =>
            (passRule f.path "sort-list-attribute" (sortableAttr cfg) sortStrings r).1).map
          fun r =>
            (passRule f.path "deduplicate-list-entries" (fun _ => true) dedupStrings r).1⟩ := by
      simp [Rewrite, passFile, hs, hd]
    have hfix1 : passFile cfg "sort-list-attribute" (sortableAttr cfg) sortStrings
        (Rewrite cfg f).1 = ((Rewrite cfg f).1, []) := by
      apply passFile_fix
      rw [hF2]
      intro r2 hr2
      simp at hr2
      obtain ⟨r0, hr0, rfl⟩ := hr2
      apply passRule_fix
      intro a2 ha2
      rw [passRule_args, passRule_args] at ha2
      rw [List.map_map] at ha2
      obtain ⟨a0, ha0, rfl⟩ := List.mem_map.mp ha2
      exact passAttr_pipeline_sort_fix cfg f.path f.path f.path a0
    have hfix2 : passFile cfg "deduplicate-list-entries" (fun _ => true) dedupStrings
        (Rewrite cfg f).1 = ((Rewrite cfg f).1, []) := by
      apply passFile_fix
      rw [hF2]
      intro r2 hr2
      simp at hr2
      obtain ⟨r0, hr0, rfl⟩ := hr2
      apply passRule_fix
      intro a2 ha2
      rw [passRule_args, passRule_args] at ha2
      rw [List.map_map] at ha2
      obtain ⟨a0, ha0, rfl⟩ := List.mem_map.mp ha2
      exact passAttr_idem _ _ _ _ _ _ dedupStrings_idem _
    generalize hG : (Rewrite cfg f).1 = G at hfix1 hfix2 ⊢
    simp [Rewrite, hfix1, hfix2]

theorem passAttr_wf (path pn : String) (ap : String → Bool)
    (fn : List String → List String) (hmem : ∀ (l : List String) x, x ∈ fn l → x ∈ l)
    (a : Arg) (ha : argWF a = true) : argWF (passAttr path pn ap fn a).1 = true := by
  cases a with
  | pos e => simpa [passAttr] using ha
  | kw n v =>
    cases v with
    | str s => simpa [passAttr] using ha
    | ident s => simpa [passAttr] using ha
    | list es =>
      by_cases hap : ap n
      · by_cases heq : fn es = es
        · simpa [passAttr, hap, heq] using ha
        · simp [passAttr, hap, heq]
          simp [argWF, exprWF] at ha ⊢
          obtain ⟨h1, h2⟩ := ha
          exact ⟨h1, fun x hx => h2 x (hmem es x hx)⟩
      · simpa [passAttr, hap] using ha

theorem passRule_kind (path pn : String) (ap : String → Bool)
    (f : List String → List String) (r : Rule) :
    (passRule path pn ap f r).1.kind = r.kind := rfl

theorem passRule_wf (path pn : String) (ap : String → Bool)
    (fn : List String → List String) (hmem : ∀ (l : List String) x, x ∈ fn l → x ∈ l)
    (r : Rule) (hr : ruleWF r = true) : ruleWF (passRule path pn ap fn r).1 = true := by
  simp [ruleWF] at hr ⊢
  obtain ⟨h1, h2⟩ := hr
  rw [passRule_kind, passRule_args]
  refine ⟨h1, ?_⟩
  intro a ha
  obtain ⟨a0, ha0, rfl⟩ := List.mem_map.mp ha
  exact passAttr_wf path pn ap fn hmem a0 (h2 a0 ha0)

theorem passFile_wf (cfg : RewriteConfig) (pn : String) (ap : String → Bool)
    (fn : List String → List String) (hmem : ∀ (l : List String) x, x ∈ fn l → x ∈ l)
    (file : File) (hf : fileWF file = true) :
    fileWF (passFile cfg pn ap fn file).1 = true := by
  by_cases hd : pn ∈ cfg.DisableRewrites
  · simpa [passFile, hd] using hf
  · simp [passFile, hd, fileWF] at hf ⊢
    intro r hr
    exact passRule_wf _ _ _ _ hmem r (hf r hr)

theorem sortStrings_mem (l : List String) (x : String) (hx : x ∈ sortStrings l) : x ∈ l :=
  ((List.perm_insertionSort _ l).mem_iff).mp hx

theorem dedupStrings_mem (l : List String) (x : String) (hx : x ∈ dedupStrings l) : x ∈ l :=
  List.mem_dedup.mp hx

/-- Rewriting preserves the well-formedness invariants the parser
establishes. -/
theorem Rewrite_wf (cfg : RewriteConfig) (f : File) (h : fileWF f = true) :
    fileWF (Rewrite cfg f).1 = true := by
  unfold Rewrite
  exact passFile_wf _ _ _ _ dedupStrings_mem _
    (passFile_wf _ _ _ _ sortStrings_mem _ h)

theorem str_empty_le (s : String) : "" ≤ s := by
  apply le_of_not_lt
  intro h
  rw [String.lt_iff_toList_lt] at h
  exact List.Lex.not_nil_right _ _ h

theorem uniqLoop_spec (l : List String) : ∀ (last : String), l.Sorted (· ≤ ·) →
    (∀ x ∈ l, last ≤ x) →
    ((∀ s, s ∈ uniqLoop last l ↔ (s ∈ l ∧ s ≠ last)) ∧
      (uniqLoop last l).Sorted (· ≤ ·) ∧ (uniqLoop last l).Nodup) := by
  induction l with
  | nil => intro last _ _; simp [uniqLoop]
  | cons a l ih =>
    intro last hsort hlb
    obtain ⟨hla, hsort'⟩ := List.sorted_cons.mp hsort
    by_cases hal : a = last
    · rw [uniqLoop, if_pos hal]
      obtain ⟨hmem, hsorted, hnd⟩ :=
        ih last hsort' (fun x hx => hlb x (List.mem_cons_of_mem _ hx))
      refine ⟨?_, hsorted, hnd⟩
      intro s
      rw [hmem s]
      constructor
      · rintro ⟨h1, h2⟩
        exact ⟨List.mem_cons_of_mem _ h1, h2⟩
      · rintro ⟨h1, h2⟩
        rcases List.mem_cons.mp h1 with h1 | h1
        · exact absurd (h1.trans hal) h2
        · exact ⟨h1, h2⟩
    · rw [uniqLoop, if_neg hal]
      obtain ⟨hmem, hsorted, hnd⟩ := ih a hsort' hla
      refine ⟨?_, ?_, ?_⟩
      · intro s
        simp only [List.mem_cons, hmem s]
        constructor
        · rintro (rfl | ⟨h1, h2⟩)
          · exact ⟨Or.inl rfl, hal⟩
          · refine ⟨Or.inr h1, ?_⟩
            intro hsl
            subst hsl
            exact hal (le_antisymm (hla s h1) (hlb a (by simp)))
        · rintro ⟨h1 | h1, h2⟩
          · exact Or.inl h1
          · by_cases hsa : s = a
            · exact Or.inl hsa
            · exact Or.inr ⟨h1, hsa⟩
      · rw [List.sorted_cons]
        exact ⟨fun b hb => hla b ((hmem b).mp hb).1, hsorted⟩
      · rw [List.nodup_cons]
        exact ⟨fun hmem' => ((hmem a).mp hmem').2 rfl, hnd⟩

/-- What check mode prints: sorted, duplicate-free, and consisting of
exactly the distinct nonempty log entries (the dedup seed `""` also
swallows empty entries). -/
theorem checkLogLines_spec (log : List String) :
    (checkLogLines log).Sorted (· ≤ ·) ∧ (checkLogLines log).Nodup ∧
      ∀ s, s ∈ checkLogLines log ↔ (s ∈ log ∧ s ≠ "") := by
  obtain ⟨hmem, hsorted, hnd⟩ := uniqLoop_spec (sortStrings log) ""
    (sortStrings_sorted log) (fun x _ => str_empty_le x)
  refine ⟨hsorted, hnd, ?_⟩
  intro s
  unfold checkLogLines
  have hss : s ∈ sortStrings log ↔ s ∈ log := (List.perm_insertionSort _ log).mem_iff
  rw [hmem s, hss]

/-- C1: formatting is idempotent after one pass: whenever `Parse`
accepts `x`, re-parsing the formatted output and formatting again
returns the same bytes, and the same holds for the tree after any run
of the rewrite pipeline (independence from rewriting). -/
theorem claim_C1_format_idempotent (p x : String) (f : File) (h : Parse p x = .ok f) :
    Except.map Format (Parse p (Format f)) = .ok (Format f) ∧
    ∀ cfg : RewriteConfig,
      Except.map Format (Parse p (Format (Rewrite cfg f).1)) =
        .ok (Format (Rewrite cfg f).1) := by
  obtain ⟨hwf, hpath⟩ := Parse_wf p x f h
  constructor
  · rw [Parse_Format f hwf p]
    have hfe : (⟨p, f.stmts⟩ : File) = f := by rw [← hpath]
    rw [hfe]
    rfl
  · intro cfg
    have hgwf : fileWF (Rewrite cfg f).1 = true := Rewrite_wf cfg f hwf
    rw [Parse_Format (Rewrite cfg f).1 hgwf p]
    have hge : (⟨p, (Rewrite cfg f).1.stmts⟩ : File) = (Rewrite cfg f).1 := by
      rw [← (Rewrite_path cfg f).trans hpath]
    rw [hge]
    rfl

/-- Witness for C1 at the concrete input `a()\n`. -/
theorem claim_C1_format_idempotent_witness :
    Parse "BUILD" "a()\n" = .ok ⟨"BUILD", [⟨"a", []⟩]⟩ ∧
    Except.map Format (Parse "BUILD" (Format ⟨"BUILD", [⟨"a", []⟩]⟩)) =
      .ok (Format ⟨"BUILD", [⟨"a", []⟩]⟩) :=
  have h : Parse "BUILD" "a()\n" = .ok ⟨"BUILD", [⟨"a", []⟩]⟩ := by rfl
  ⟨h, (claim_C1_format_idempotent "BUILD" "a()\n" _ h).1⟩

/-- C2: canonical round trip: a text that is the canonical form of
some well-formed file parses back and re-formats to itself,
byte-for-byte. -/
theorem claim_C2_canonical_roundtrip (t : String) (h : IsCanonical t) (p : String) :
    Except.map Format (Parse p t) = .ok t := by
  obtain ⟨f, hwf, hfmt⟩ := h
  subst hfmt
  rw [Parse_Format f hwf p]
  rfl

/-- Witness for C2 at the canonical text `a()\n`. -/
theorem claim_C2_canonical_roundtrip_witness :
    IsCanonical "a()\n" ∧
    Except.map Format (Parse "p" "a()\n") = .ok "a()\n" :=
  have h : IsCanonical "a()\n" := ⟨⟨"", [⟨"a", []⟩]⟩, by rfl, by rfl⟩
  ⟨h, claim_C2_canonical_roundtrip "a()\n" h "p"⟩

/-- C3: the rewrite pipeline is idempotent: the second run returns the
same tree with an empty log, so the formatted output is unchanged. -/
theorem claim_C3_rewrite_idempotent (cfg : RewriteConfig) (f : File) :
    Rewrite cfg (Rewrite cfg f).1 = ((Rewrite cfg f).1, ⟨[]⟩) ∧
    Format (Rewrite cfg (Rewrite cfg f).1).1 = Format (Rewrite cfg f).1 :=
  ⟨Rewrite_idem cfg f, by rw [Rewrite_idem cfg f]⟩

/-- C4: `Parse` returns either a `File` or a `SynErr`; by its `Except`
result type a failed parse yields no partial tree.  Every error carries
a position and a nonempty description of what was expected, and the
spec's truncated input `go_library(name=` fails with "expected an
expression" exactly at the end of input. -/
theorem claim_C4_parse_contract :
    (∀ p s : String, (∃ f, Parse p s = .ok f) ∨
      (∃ e : SynErr, Parse p s = .error e ∧ e.expected.describe ≠ "")) ∧
    Parse "BUILD" "go_library(name=" =
      .error ⟨"go_library(name=".length, .expression⟩ := by
  constructor
  · intro p s
    cases h : Parse p s with
    | ok f => exact Or.inl ⟨f, rfl⟩
    | error e =>
      refine Or.inr ⟨e, rfl, ?_⟩
      cases he : e.expected <;> simp [Expectation.describe]
  · rfl

/-- C5: `Rule.Name` prefers the `name` keyword attribute (even when a
positional argument is present), falls back to a first positional
string literal, and is empty otherwise. -/
theorem claim_C5_rule_name (r : Rule) :
    (∀ s, r.AttrExpr "name" = some (.str s) → r.Name = s) ∧
    (r.AttrExpr "name" = none → ∀ s, r.firstPositional = some (.str s) → r.Name = s) ∧
    (r.AttrExpr "name" = none → (∀ s, r.firstPositional ≠ some (.str s)) →
      r.Name = "") := by
  refine ⟨?_, ?_, ?_⟩
  · intro s h
    simp [Rule.Name, h, strValue]
  · intro h s h2
    simp [Rule.Name, h, h2, strValue]
  · intro h h2
    simp only [Rule.Name, h]
    cases hf : r.firstPositional with
    | none => rfl
    | some e =>
      cases e with
      | str s => exact absurd hf (h2 s)
      | ident s => simp [strValue]
      | list es => simp [strValue]

/-- Witness for C5: keyword precedence over a positional argument,
positional fallback, and the empty-name default. -/
theorem claim_C5_rule_name_witness :
    (Rule.mk "go_library" [.pos (.str "p"), .kw "name" (.str "x")]).Name = "x" ∧
    (Rule.mk "go_library" [.pos (.str "p")]).Name = "p" ∧
    (Rule.mk "go_library" [.pos (.ident "z")]).Name = "" := by
  refine ⟨(claim_C5_rule_name _).1 "x" (by rfl),
    (claim_C5_rule_name _).2.1 (by rfl) "p" (by rfl),
    (claim_C5_rule_name _).2.2 (by rfl) ?_⟩
  intro s h
  have he : (Rule.mk "go_library" [.pos (.ident "z")]).firstPositional =
      some (.ident "z") := rfl
  rw [he] at h
  simp at h

/-- C6 counterexample: in pipe mode the driver performs none of the
enumerated output actions even though the final formatted bytes differ
from the input (it writes standard output unconditionally instead), so
the claim's "iff" fails for a file processed in pipe mode. -/
theorem claim_C6_counterexample :
    Parse "stdin" "a()" = .ok ⟨"stdin", [⟨"a", []⟩]⟩ ∧
    Format (Rewrite (⟨[], []⟩ : RewriteConfig) ⟨"stdin", [⟨"a", []⟩]⟩).1 ≠ "a()" ∧
    (processFile ⟨.pipe, false, false, "", ⟨[], []⟩⟩ "stdin" "a()").actions.all
      (fun a => !outputAction a) = true := by
  refine ⟨by rfl, by decide, by rfl⟩

/-- C6 amended: after a successful parse the driver calls Format,
Rewrite, Format in that order, and in check, diff and fix modes it
performs an output action exactly when the final formatted bytes
differ from the input bytes (pipe mode instead always writes the
formatted bytes to standard output). -/
theorem claim_C6_driver_contract (fl : DriverFlags) (fn data : String) (f : File)
    (hm : fl.mode = .check ∨ fl.mode = .diffMode ∨ fl.mode = .fix)
    (hp : Parse fn data = .ok f) :
    (processFile fl fn data).trace =
      [.parseCall, .formatCall, .rewriteCall, .formatCall] ∧
    ((processFile fl fn data).actions ≠ [] ↔
      Format (Rewrite fl.cfg (if fl.pathFlag = "" then f else ⟨fl.pathFlag, f.stmts⟩)).1 ≠
        data) := by
  by_cases hpf : fl.pathFlag = "" <;> rcases hm with hm | hm | hm <;>
    (simp only [processFile, hp, hm]
     first
     | rw [if_pos hpf]
     | rw [if_neg hpf]
     refine ⟨by split <;> rfl, ?_⟩
     split
     · rename_i hcond
       simp [hcond]
     · rename_i hcond
       simp only [ne_eq]
       constructor
       · intro _ hFd
         exact hcond hFd.symm
       · intro _
         simp)

/-- Witness for C6 in fix mode on already-canonical input. -/
theorem claim_C6_driver_contract_witness :
    Parse "BUILD" "a()\n" = .ok ⟨"BUILD", [⟨"a", []⟩]⟩ ∧
    (processFile ⟨.fix, false, false, "", ⟨[], []⟩⟩ "BUILD" "a()\n").trace =
      [.parseCall, .formatCall, .rewriteCall, .formatCall] ∧
    ((processFile ⟨.fix, false, false, "", ⟨[], []⟩⟩ "BUILD" "a()\n").actions ≠ [] ↔
      Format (Rewrite (⟨[], []⟩ : RewriteConfig)
        (if ("" : String) = "" then (⟨"BUILD", [⟨"a", []⟩]⟩ : File)
         else ⟨"", [⟨"a", []⟩]⟩)).1 ≠ "a()\n") :=
  have h : Parse "BUILD" "a()\n" = .ok ⟨"BUILD", [⟨"a", []⟩]⟩ := by rfl
  ⟨h, claim_C6_driver_contract ⟨.fix, false, false, "", ⟨[], []⟩⟩ "BUILD" "a()\n" _
    (Or.inr (Or.inr rfl)) h⟩

/-- Every log entry a rewrite pass emits over one argument is nonempty:
it is the file path followed by the literal `": "`, the pass name and
the attribute name. -/
theorem passAttr_log_ne (path pn : String) (ap : String → Bool)
    (f : List String → List String) (a : Arg) :
    ∀ s ∈ (passAttr path pn ap f a).2, s ≠ "" := by
  intro s hs heq
  subst heq
  cases a with
  | pos e => simp [passAttr] at hs
  | kw n v =>
    cases v with
    | str t => simp [passAttr] at hs
    | ident t => simp [passAttr] at hs
    | list es =>
      simp only [passAttr] at hs
      split at hs
      · split at hs
        · simp at hs
        · simp at hs
          have h2 := congrArg String.length hs
          simp [String.length_append] at h2
          have h3 : (": " : String).length = 2 := rfl
          rw [h3] at h2
          omega
      · simp at hs

/-- Every log entry a rewrite pass emits over one rule is nonempty. -/
theorem passRule_log_ne (path pn : String) (ap : String → Bool)
    (f : List String → List String) (r : Rule) :
    ∀ s ∈ (passRule path pn ap f r).2, s ≠ "" := by
  intro s hs
  simp only [passRule, List.mem_flatMap] at hs
  obtain ⟨a, _, ha⟩ := hs
  exact passAttr_log_ne path pn ap f a s ha

/-- Every log entry a rewrite pass emits over a file is nonempty. -/
theorem passFile_log_ne (cfg : RewriteConfig) (pn : String) (ap : String → Bool)
    (f : List String → List String) (file : File) :
    ∀ s ∈ (passFile cfg pn ap f file).2, s ≠ "" := by
  intro s hs
  by_cases hd : pn ∈ cfg.DisableRewrites
  · simp [passFile, hd] at hs
  · simp only [passFile] at hs
    rw [if_neg (by simpa using hd)] at hs
    simp only [List.mem_flatMap] at hs
    obtain ⟨r, _, hr⟩ := hs
    exact passRule_log_ne file.path pn ap f r s hr

/-- Every entry of the log `Rewrite` produces is nonempty, so the
zero-value seed of the driver's dedup loop never drops a reachable
entry. -/
theorem Rewrite_log_ne (cfg : RewriteConfig) (f : File) :
    ∀ s ∈ (Rewrite cfg f).2.Log, s ≠ "" := by
  intro s hs
  simp only [Rewrite, List.mem_append] at hs
  cases hs with
  | inl h => exact passFile_log_ne _ _ _ _ _ s h
  | inr h => exact passFile_log_ne _ _ _ _ _ s h

/-- C7: when the driver reports in check mode what changed for a file,
the log lines it prints (`checkLogLines` applied to the rewrite log,
exactly what the check-mode report line of `processFile` interpolates)
are sorted and contain no duplicates, and each distinct entry of the
rewrite log appears exactly once: membership in the printed lines
coincides with membership in the log, because every entry `Rewrite`
emits is nonempty and hence survives the zero-value-seeded dedup
loop. -/
theorem claim_C7_log_dedup (cfg : RewriteConfig) (f : File) :
    (checkLogLines (Rewrite cfg f).2.Log).Sorted (· ≤ ·) ∧
      (checkLogLines (Rewrite cfg f).2.Log).Nodup ∧
      ∀ s, s ∈ checkLogLines (Rewrite cfg f).2.Log ↔ s ∈ (Rewrite cfg f).2.Log := by
  obtain ⟨h1, h2, h3⟩ := checkLogLines_spec (Rewrite cfg f).2.Log
  refine ⟨h1, h2, fun s => ?_⟩
  rw [h3 s]
  exact ⟨fun h => h.1, fun h => ⟨h, Rewrite_log_ne cfg f s h⟩⟩

set_option maxRecDepth 100000 in
/-- C8: the core returns values and errors only: `NewBuildFile`
reaches neither `log.Fatalf` branch (the outer `.error`, standing for
a `Fatalf` abort, is not taken), on any call. -/
theorem claim_C8_no_fatal :
    NewBuildFile = .ok (Parse "generated" generatedText) := by
  rfl

/-- C9: a parse failure is discarded by `processFile`: no action, a
nil error (hence no driver diagnostic), only the parse call in the
trace, and the process exit code stays 0. -/
theorem claim_C9_parse_error_swallowed (fl : DriverFlags) (fn data : String)
    (e : SynErr) (h : Parse fn data = .error e) :
    processFile fl fn data = ⟨[], none, [.parseCall]⟩ ∧
    runFiles fl [(fn, data)] = ([], exitCode) ∧ exitCode = 0 := by
  have h1 : processFile fl fn data = ⟨[], none, [.parseCall]⟩ := by
    simp [processFile, h]
  refine ⟨h1, ?_, rfl⟩
  simp [runFiles, h1]

/-- Witness for C9 at the malformed input `(`. -/
theorem claim_C9_parse_error_swallowed_witness :
    Parse "BUILD" "(" = .error ⟨0, .ruleName⟩ ∧
    processFile ⟨.fix, false, false, "", ⟨[], []⟩⟩ "BUILD" "(" = ⟨[], none, [.parseCall]⟩ ∧
    exitCode = 0 :=
  have h : Parse "BUILD" "(" = .error ⟨0, .ruleName⟩ := by rfl
  ⟨h, (claim_C9_parse_error_swallowed ⟨.fix, false, false, "", ⟨[], []⟩⟩ "BUILD" "(" _ h).1,
    (claim_C9_parse_error_swallowed ⟨.fix, false, false, "", ⟨[], []⟩⟩ "BUILD" "(" _ h).2.2⟩

set_option maxRecDepth 100000 in
/-- C10: `NewBuildFile` renders one fixed document whose single
attribute is a quoted string key followed by a colon (not keyword
assignment), and returns exactly `Parse "generated"` of those bytes;
being a pure value, every call yields the same outcome. -/
theorem claim_C10_generated_document :
    NewBuildFile = .ok (Parse "generated" generatedText) ∧
    generatedText =
      "\ngo_library(\n    \n        \"srcs\" : [\n           \n                \"src.go\",\n           \n        ],\n    \n)\n" ∧
    hasSub generatedText.data "\"srcs\" : [".data = true ∧
    hasSub generatedText.data "srcs = [".data = false := by
  refine ⟨rfl, rfl, by decide, by decide⟩

end Buildifier
